import Mathlib

/-!
Formal model of the P2Share peer-to-peer file sharing program.

The Python sources modelled here are:
* p2p_network.py  (message framing, dispatch, chunked file transfer),
* peer_discovery.py (peer registry with TTL-based visibility and eviction),
* file_manager.py (the shared-file catalog, as consumed by the network core).

Conventions of the shallow embedding:
* Python byte strings are (List Nat) (one Nat per byte, values < 256 where relevant);
* Python str values are (List Char) (one Char per Unicode code point);
* Python time.time() values are Int (the claims only compare instants);
* the filesystem is an association list from path to file contents;
* fallible operations return Option; a raised-and-caught exception that closes
  a connection is modelled as an explicit outcome constructor.
-/

set_option maxHeartbeats 1000000

namespace P2Share

/-! ### JSON text layer: the exact output of Python json.dumps
(default options: ensure_ascii=True, separators (", ", ": ")) and the part of
json.loads that is reachable from those canonical frames. -/

/-- Lowercase hex digit, as produced by the "04x" format used by json.dumps. -/
def hexDigitChar (n : Nat) : Char :=
  if n < 10 then Char.ofNat (48 + n) else Char.ofNat (87 + n)

/-- Four lowercase hex digits of a value below 0x10000 (the u-escape body). -/
def hex4Chars (n : Nat) : List Char :=
  [hexDigitChar (n / 4096 % 16), hexDigitChar (n / 256 % 16),
   hexDigitChar (n / 16 % 16), hexDigitChar (n % 16)]

/-- Value of one hex digit, as accepted by the json.loads string scanner
(both lowercase and uppercase). -/
def hexVal (c : Char) : Option Nat :=
  let n := c.toNat
  if 48 ≤ n ∧ n ≤ 57 then some (n - 48)
  else if 97 ≤ n ∧ n ≤ 102 then some (n - 87)
  else if 65 ≤ n ∧ n ≤ 70 then some (n - 55)
  else none

/-- Escaping of one character by json.dumps with ensure_ascii=True
(py_encode_basestring_ascii): backslash, quote and the named control
characters get two-character escapes, other characters outside 0x20..0x7e get
u-escapes, with a surrogate pair for code points above 0xFFFF. -/
def escapeChar (ch : Char) : List Char :=
  let n := ch.toNat
  if ch = '\"' then ['\\', '\"']
  else if ch = '\\' then ['\\', '\\']
  else if n = 8 then ['\\', 'b']
  else if n = 9 then ['\\', 't']
  else if n = 10 then ['\\', 'n']
  else if n = 12 then ['\\', 'f']
  else if n = 13 then ['\\', 'r']
  else if 0x20 ≤ n ∧ n ≤ 0x7e then [ch]
  else if n < 0x10000 then '\\' :: 'u' :: hex4Chars n
  else
    let v := n - 0x10000
    ('\\' :: 'u' :: hex4Chars (0xD800 ||| (v >>> 10 &&& 0x3FF))) ++
    ('\\' :: 'u' :: hex4Chars (0xDC00 ||| (v &&& 0x3FF)))

/-- Escaping of a whole string body (the characters between the quotes). -/
def escapeString : List Char → List Char
  | [] => []
  | c :: s => escapeChar c ++ escapeString s

/-- A JSON string literal: quote, escaped body, quote. -/
def jstr (s : List Char) : List Char := '\"' :: (escapeString s ++ ['\"'])

/-- Prepend a character to the parsed part of a scanner result. -/
def mapCons (c : Char) (o : Option (List Char × List Char)) :
    Option (List Char × List Char) :=
  o.map (fun r => (c :: r.1, r.2))

/-- Four hex digits scanned into their value (the body of a u-escape). -/
def hex4Val : List Char → Option (Nat × List Char)
  | a :: b :: c :: d :: rest =>
    (hexVal a).bind (fun x =>
      (hexVal b).bind (fun y =>
        (hexVal c).bind (fun z =>
          (hexVal d).bind (fun w =>
            some (4096 * x + 256 * y + 16 * z + w, rest)))))
  | _ => none

/-- One escape sequence of the json.loads string scanner, starting just
after the backslash: the named single-character escapes, or a u-escape,
combining a high surrogate followed by a second u-escape of a low surrogate
into one code point exactly as the Python scanner does.  An unpaired
surrogate escape is rejected here because a lone surrogate is not
representable as a Char (the encoder above never produces one, so this
difference is unreachable on canonical frames). -/
def escStep : List Char → Option (Char × List Char)
  | [] => none
  | e :: r =>
    if e = '\"' then some ('\"', r)
    else if e = '\\' then some ('\\', r)
    else if e = '/' then some ('/', r)
    else if e = 'b' then some (Char.ofNat 8, r)
    else if e = 'f' then some (Char.ofNat 12, r)
    else if e = 'n' then some (Char.ofNat 10, r)
    else if e = 'r' then some (Char.ofNat 13, r)
    else if e = 't' then some (Char.ofNat 9, r)
    else if e = 'u' then
      (hex4Val r).bind (fun p =>
        if p.1 < 55296 ∨ 57344 ≤ p.1 then some (Char.ofNat p.1, p.2)
        else if p.1 < 56320 then
          match p.2 with
          | u1 :: u2 :: r3 =>
            if u1 = '\\' ∧ u2 = 'u' then
              (hex4Val r3).bind (fun q =>
                if 56320 ≤ q.1 ∧ q.1 < 57344 then
                  some (Char.ofNat (65536 + ((p.1 - 55296) <<< 10 ||| (q.1 - 56320))), q.2)
                else none)
            else none
          | _ => none
        else none)
    else none

/-- The json.loads string scanner (py_scanstring, strict mode), started just
after the opening quote; returns the decoded body and the input following
the closing quote.  Unescaped control characters are rejected (strict mode).
The fuel argument only bounds the recursion (every step consumes at least
one character). -/
def unescCore : Nat → List Char → Option (List Char × List Char)
  | 0, _ => none
  | fuel + 1, s =>
    match s with
    | [] => none
    | c :: rest =>
      if c = '\"' then some ([], rest)
      else if c = '\\' then
        (escStep rest).bind (fun p => mapCons p.1 (unescCore fuel p.2))
      else if c.toNat < 32 then none
      else mapCons c (unescCore fuel rest)

/-- String-body scanning with sufficient fuel. -/
def unesc (s : List Char) : Option (List Char × List Char) := unescCore s.length s

/-- Decimal digit character. -/
def digitChar (n : Nat) : Char := Char.ofNat (48 + n)

/-- Decimal digits of a natural number, most significant first
(json.dumps renders a nonnegative Python int this way).
The fuel argument only bounds the recursion; any fuel above the value
gives the digits. -/
def natToDigitsCore : Nat → Nat → List Char
  | 0, _ => []
  | fuel + 1, n =>
    if n < 10 then [digitChar n]
    else natToDigitsCore fuel (n / 10) ++ [digitChar (n % 10)]

/-- Decimal rendering of a natural number. -/
def natToDigits (n : Nat) : List Char := natToDigitsCore (n + 1) n

/-- Whether a character is a decimal digit. -/
def isDigitC (c : Char) : Bool := 48 ≤ c.toNat && c.toNat ≤ 57

/-- Value of a decimal digit character. -/
def digitValC (c : Char) : Nat := c.toNat - 48

/-- Consume a run of decimal digits, extending the accumulator. -/
def parseDigits : List Char → Nat → Nat × List Char
  | [], acc => (acc, [])
  | c :: rest, acc =>
    if isDigitC c then parseDigits rest (acc * 10 + digitValC c)
    else (acc, c :: rest)

/-- Scan a nonnegative decimal integer (at least one digit). -/
def chompNat : List Char → Option (Nat × List Char)
  | [] => none
  | c :: rest =>
    if isDigitC c then some (parseDigits rest (digitValC c)) else none

/-- Consume an expected literal from the front of the input. -/
def chomp : List Char → List Char → Option (List Char)
  | [], s => some s
  | _ :: _, [] => none
  | c :: pre, x :: s => if x = c then chomp pre s else none

/-- Split the input at the first quote character (used for the type tag,
which never contains escapes on canonical frames). -/
def splitAtQuote : List Char → Option (List Char × List Char)
  | [] => none
  | c :: rest =>
    if c = '\"' then some ([], rest)
    else mapCons c (splitAtQuote rest)

/-- Scan a JSON string literal: an opening quote followed by a scanned body. -/
def chompStr : List Char → Option (List Char × List Char)
  | [] => none
  | c :: rest => if c = '\"' then unesc rest else none

/-! ### Protocol messages (p2p_network.py)

The dictionaries the program sends are: file_list_request and ping/pong
(only a type tag), file_list_response (type, files), file_request
(type, filename), and file_response either with success=true, filename and
size, or with success=false and an error text — these are the only message
shapes _send_message is ever given. -/

/-- One entry of a file_list_response: name, size, hash, in the key order
used by _handle_file_list_request. -/
structure FileDescriptor where
  name : List Char
  size : Nat
  hash : List Char
deriving DecidableEq

/-- The protocol messages, as built by p2p_network.py. -/
inductive Message where
  | file_list_request : Message
  | file_list_response (files : List FileDescriptor) : Message
  | file_request (filename : List Char) : Message
  | file_response_ok (filename : List Char) (size : Nat) : Message
  | file_response_err (error : List Char) : Message
  | ping : Message
  | pong : Message
deriving DecidableEq

/-- json.dumps of one file entry dictionary. -/
def dumpFile (f : FileDescriptor) : List Char :=
  "\x7b\"name\": ".toList ++ jstr f.name ++
  ", \"size\": ".toList ++ natToDigits f.size ++
  ", \"hash\": ".toList ++ jstr f.hash ++ "\x7d".toList

/-- json.dumps of a list body: entries joined by ", ". -/
def dumpFiles : List FileDescriptor → List Char
  | [] => []
  | [f] => dumpFile f
  | f :: g :: rest => dumpFile f ++ ", ".toList ++ dumpFiles (g :: rest)

/-- json.dumps of each message dictionary (insertion order of the keys,
", " and ": " separators, ensure_ascii escaping). -/
def dumpsMessage : Message → List Char
  | .file_list_request => "\x7b\"type\": \"file_list_request\"\x7d".toList
  | .file_list_response files =>
      "\x7b\"type\": \"file_list_response\", \"files\": [".toList ++
      dumpFiles files ++ "]\x7d".toList
  | .file_request f =>
      "\x7b\"type\": \"file_request\", \"filename\": ".toList ++
      jstr f ++ "\x7d".toList
  | .file_response_ok f n =>
      "\x7b\"type\": \"file_response\", \"success\": true, \"filename\": ".toList ++
      jstr f ++ ", \"size\": ".toList ++ natToDigits n ++ "\x7d".toList
  | .file_response_err e =>
      "\x7b\"type\": \"file_response\", \"success\": false, \"error\": ".toList ++
      jstr e ++ "\x7d".toList
  | .ping => "\x7b\"type\": \"ping\"\x7d".toList
  | .pong => "\x7b\"type\": \"pong\"\x7d".toList

/-- Parse one file entry object of a file_list_response payload. -/
def chompFile (s : List Char) : Option (FileDescriptor × List Char) :=
  (chomp "\x7b\"name\": ".toList s).bind (fun s1 =>
    (chompStr s1).bind (fun n1 =>
      (chomp ", \"size\": ".toList n1.2).bind (fun s3 =>
        (chompNat s3).bind (fun n2 =>
          (chomp ", \"hash\": ".toList n2.2).bind (fun s5 =>
            (chompStr s5).bind (fun n3 =>
              (chomp "\x7d".toList n3.2).map (fun s7 =>
                (⟨n1.1, n2.1, n3.1⟩, s7))))))))

/-- Parse a nonempty sequence of file entries separated by ", " and
terminated by "]"; consumes the closing bracket.  The fuel argument only
bounds the recursion (each entry consumes at least one character). -/
def chompFiles : Nat → List Char → Option (List FileDescriptor × List Char)
  | 0, _ => none
  | fuel + 1, s =>
    (chompFile s).bind (fun p =>
      match chomp ", ".toList p.2 with
      | some rest' =>
        (chompFiles fuel rest').map (fun r => (p.1 :: r.1, r.2))
      | none =>
        (chomp "]".toList p.2).map (fun rest' => ([p.1], rest')))

/-- The part of json.loads reachable from the canonical frames produced by
dumpsMessage: parse the type tag, dispatch on it, and require the input to be
fully consumed (json.loads rejects trailing data).  On payloads that are not
canonical encodings of a protocol message this scanner answers none where
json.loads may build some other dictionary; _receive_message and
_handle_client treat both situations as a failed receive, and the round-trip
statements only evaluate it on canonical frames. -/
def loadsMessage (s : List Char) : Option Message :=
  (chomp "\x7b\"type\": \"".toList s).bind (fun s1 =>
    (splitAtQuote s1).bind (fun t =>
      let tname := t.1
      let s2 := t.2
      if tname = "ping".toList then
        if s2 = "\x7d".toList then some .ping else none
      else if tname = "pong".toList then
        if s2 = "\x7d".toList then some .pong else none
      else if tname = "file_list_request".toList then
        if s2 = "\x7d".toList then some .file_list_request else none
      else if tname = "file_list_response".toList then
        (chomp ", \"files\": [".toList s2).bind (fun s3 =>
          if s3 = "]\x7d".toList then some (.file_list_response [])
          else
            (chompFiles s3.length s3).bind (fun p =>
              if p.2 = "\x7d".toList then some (.file_list_response p.1) else none))
      else if tname = "file_request".toList then
        (chomp ", \"filename\": ".toList s2).bind (fun s3 =>
          (chompStr s3).bind (fun p =>
            if p.2 = "\x7d".toList then some (.file_request p.1) else none))
      else if tname = "file_response".toList then
        match chomp ", \"success\": true, \"filename\": ".toList s2 with
        | some s3 =>
          (chompStr s3).bind (fun p =>
            (chomp ", \"size\": ".toList p.2).bind (fun s5 =>
              (chompNat s5).bind (fun q =>
                if q.2 = "\x7d".toList then some (.file_response_ok p.1 q.1) else none)))
        | none =>
          (chomp ", \"success\": false, \"error\": ".toList s2).bind (fun s3 =>
            (chompStr s3).bind (fun p =>
              if p.2 = "\x7d".toList then some (.file_response_err p.1) else none))
      else none))

/-! ### UTF-8 (str.encode / bytes.decode) -/

/-- UTF-8 encoding of one code point. -/
def utf8EncodeChar (n : Nat) : List Nat :=
  if n < 0x80 then [n]
  else if n < 0x800 then [0xC0 + n / 64, 0x80 + n % 64]
  else if n < 0x10000 then
    [0xE0 + n / 4096, 0x80 + n / 64 % 64, 0x80 + n % 64]
  else
    [0xF0 + n / 262144, 0x80 + n / 4096 % 64, 0x80 + n / 64 % 64, 0x80 + n % 64]

/-- UTF-8 encoding of a string (str.encode of _send_message). -/
def utf8Encode : List Char → List Nat
  | [] => []
  | c :: s => utf8EncodeChar c.toNat ++ utf8Encode s

/-- Decoding of one UTF-8 sequence given its first byte and the following
bytes: rejects stray continuation bytes, overlong forms, surrogates and
out-of-range code points, as the strict Python utf-8 codec does. -/
def utf8Step (b : Nat) (rest : List Nat) : Option (Nat × List Nat) :=
  if b < 0x80 then some (b, rest)
  else if b < 0xC2 then none
  else if b < 0xE0 then
    match rest with
    | b1 :: rest1 =>
      if 0x80 ≤ b1 ∧ b1 < 0xC0 then some ((b - 0xC0) * 64 + (b1 - 0x80), rest1)
      else none
    | [] => none
  else if b < 0xF0 then
    match rest with
    | b1 :: b2 :: rest2 =>
      if (0x80 ≤ b1 ∧ b1 < 0xC0) ∧ (0x80 ≤ b2 ∧ b2 < 0xC0) then
        let n := (b - 0xE0) * 4096 + (b1 - 0x80) * 64 + (b2 - 0x80)
        if n < 0x800 ∨ (0xD800 ≤ n ∧ n < 0xE000) then none
        else some (n, rest2)
      else none
    | _ => none
  else if b < 0xF5 then
    match rest with
    | b1 :: b2 :: b3 :: rest3 =>
      if (0x80 ≤ b1 ∧ b1 < 0xC0) ∧ (0x80 ≤ b2 ∧ b2 < 0xC0) ∧ (0x80 ≤ b3 ∧ b3 < 0xC0) then
        let n := (b - 0xF0) * 262144 + (b1 - 0x80) * 4096 +
                 (b2 - 0x80) * 64 + (b3 - 0x80)
        if n < 0x10000 ∨ 0x110000 ≤ n then none
        else some (n, rest3)
      else none
    | _ => none
  else none

/-- Strict UTF-8 decoding (bytes.decode of _receive_message / _handle_client).
The fuel argument only bounds the recursion (every sequence consumes at
least one byte). -/
def utf8DecodeCore : Nat → List Nat → Option (List Char)
  | _, [] => some []
  | 0, _ :: _ => none
  | fuel + 1, b :: rest =>
    (utf8Step b rest).bind (fun p =>
      (utf8DecodeCore fuel p.2).map (fun s => Char.ofNat p.1 :: s))

/-- Strict UTF-8 decoding with sufficient fuel. -/
def utf8Decode (bs : List Nat) : Option (List Char) := utf8DecodeCore bs.length bs

/-! ### Framing (_send_message, _receive_message, _receive_exact) -/

/-- int.to_bytes(4, big): the four big-endian bytes of a value below 2^32. -/
def toBytes4BE (n : Nat) : List Nat :=
  [n / 16777216 % 256, n / 65536 % 256, n / 256 % 256, n % 256]

/-- int.from_bytes(big) of a four-byte string. -/
def fromBytesBE (bs : List Nat) : Nat :=
  bs.foldl (fun acc b => acc * 256 + b) 0

/-- _send_message: length-prefixed frame carrying the UTF-8 JSON payload.
int.to_bytes(4, big) raises OverflowError for a length of 2^32 or more; the
surrounding except turns that into a failed send, modelled as none. -/
def sendMessage (m : Message) : Option (List Nat) :=
  let payload := utf8Encode (dumpsMessage m)
  if payload.length < 4294967296 then
    some (toBytes4BE payload.length ++ payload)
  else none

/-- _receive_exact on a stream that will deliver exactly the given bytes
before closing: n bytes are returned unless the stream is exhausted first. -/
def receiveExact (stream : List Nat) (n : Nat) : Option (List Nat × List Nat) :=
  if stream.length < n then none else some (stream.take n, stream.drop n)

/-- _receive_message: read the 4-byte length, enforce the 1 MiB limit, read
exactly that many payload bytes (an empty payload is treated as a closed
stream by the `if not message_data` check), decode UTF-8 and parse JSON.
Returns the message and the bytes remaining in the stream. -/
def receiveMessage (stream : List Nat) : Option (Message × List Nat) :=
  match receiveExact stream 4 with
  | none => none
  | some (len4, rest) =>
    let len := fromBytesBE len4
    if len > 1048576 then none
    else
      match receiveExact rest len with
      | none => none
      | some (payload, rest') =>
        if payload = [] then none
        else
          match utf8Decode payload with
          | none => none
          | some chars =>
            match loadsMessage chars with
            | some m => some (m, rest')
            | none => none

/-- The frame _send_message writes for a message whose payload length fits in
four bytes. -/
def frameOf (m : Message) : List Nat :=
  toBytes4BE (utf8Encode (dumpsMessage m)).length ++ utf8Encode (dumpsMessage m)

/-! ### Server receive loop (_handle_client, lines 111-124) -/

/-- Outcome of one iteration of the _handle_client frame loop. -/
inductive FrameRead where
  | closedEof : FrameRead
  | closedOversize : FrameRead
  | closedEmpty : FrameRead
  | gotPayload (payload : List Nat) : FrameRead
deriving DecidableEq

/-- One iteration of the _handle_client receive loop: read the 4-byte length
(EOF closes), break without reading any payload bytes when the declared
length exceeds 1 MiB, read exactly the declared bytes (EOF closes; an empty
payload also breaks the loop), otherwise hand the payload to json.loads and
dispatch.  The second component is what remains unread in the stream. -/
def readFrame (stream : List Nat) : FrameRead × List Nat :=
  match receiveExact stream 4 with
  | none => (.closedEof, stream)
  | some (len4, rest) =>
    let len := fromBytesBE len4
    if len > 1048576 then (.closedOversize, rest)
    else
      match receiveExact rest len with
      | none => (.closedEof, rest)
      | some (payload, rest') =>
        if payload = [] then (.closedEmpty, rest')
        else (.gotPayload payload, rest')

/-! ### Filesystem and catalog (file_manager.py, as used by the core) -/

/-- The filesystem: a map from path to file contents.  os.path.exists,
os.path.getsize and open are reads of this map. -/
abbrev Fs := List (List Char × List Nat)

/-- Association-list lookup with decidable key equality (Python dict read). -/
def alookup {α : Type} : List (List Char × α) → List Char → Option α
  | [], _ => none
  | (k, v) :: rest, key => if key = k then some v else alookup rest key

/-- os.path.exists for a present path. -/
def pathExists (fs : Fs) (p : List Char) : Bool := (alookup fs p).isSome

/-- Contents of a file at an existing path (empty for a missing path; only
used under a pathExists guard). -/
def contentsOf (fs : Fs) (p : List Char) : List Nat := (alookup fs p).getD []

/-- One value of the shared_files dictionary of FileManager: path, size,
hash and added_time as stored at add time.  The handlers modelled here read
only the path. -/
structure CatEntry where
  path : List Char
  size : Nat
  hash : List Char
  added_time : Nat
deriving DecidableEq

/-- The shared-file catalog: filename to entry, in insertion order. -/
abbrev Catalog := List (List Char × CatEntry)

/-- FileManager.get_shared_files: collects the names whose stored path no
longer exists, deletes those entries from the dictionary (persisting the
change), and returns the remaining names.  The net effect of the deletions on
the insertion-ordered dictionary is a filter. -/
def get_shared_files (fs : Fs) (cat : Catalog) : List (List Char) × Catalog :=
  let cat' := cat.filter (fun e => pathExists fs e.2.path)
  (cat'.map (fun e => e.1), cat')

/-- FileManager.get_file_path: the stored path of a shared name, if any. -/
def get_file_path (cat : Catalog) (filename : List Char) : Option (List Char) :=
  (alookup cat filename).map (fun e => e.path)

/-- Splitting of file contents into the 4096-byte chunks sent by
_handle_file_request (file.read(4096) until empty).  The fuel argument only
bounds the recursion. -/
def fileChunksCore : Nat → List Nat → List (List Nat)
  | 0, _ => []
  | fuel + 1, data =>
    if data = [] then [] else data.take 4096 :: fileChunksCore fuel (data.drop 4096)

/-- The chunk sequence sent for given file contents. -/
def fileChunks (data : List Nat) : List (List Nat) :=
  fileChunksCore (data.length + 1) data

/-- What the server does with one dispatched request, as seen on the
connection: send a reply frame, send a reply frame followed by raw file
chunks, send nothing and keep serving, or raise out of the handler (the
except/finally of _handle_client then logs and closes the connection). -/
inductive Action where
  | reply (m : Message) : Action
  | replyFile (header : Message) (chunks : List (List Nat)) : Action
  | noAction : Action
  | raiseClose : Action
deriving DecidableEq

/-- Whether the action ends the connection (_handle_client keeps looping
after a handler returns normally and closes it when a handler raises). -/
def closesConnection : Action → Bool
  | .raiseClose => true
  | _ => false

/-- _handle_file_request, with the filename field of the received message as
an Option (message.get returns None when the key is absent):
* absent or empty filename: `if not filename: return` — no response, state
  untouched, the connection keeps being served;
* name not in the catalog: get_file_path returns None and
  os.path.exists(None) raises TypeError (genericpath.exists catches only
  OSError and ValueError), so the handler raises and _handle_client closes
  the connection without sending anything;
* name resolves but the path is gone: send the File-not-found error response
  and keep serving;
* otherwise send the success header with the current size and then the file
  bytes in 4096-byte chunks.
The catalog is returned unchanged on every path. -/
def process_file_request (fs : Fs) (cat : Catalog)
    (filenameField : Option (List Char)) : Action × Catalog :=
  match filenameField with
  | none => (.noAction, cat)
  | some f =>
    if f = [] then (.noAction, cat)
    else
      match get_file_path cat f with
      | none => (.raiseClose, cat)
      | some p =>
        if pathExists fs p then
          let contents := contentsOf fs p
          (.replyFile (.file_response_ok f contents.length) (fileChunks contents), cat)
        else
          (.reply (.file_response_err "File not found".toList), cat)

/-- _handle_file_list_request: ask the catalog for the shared names (this
call itself drops entries whose path is gone), resolve each name, skip names
whose path does not exist, and reply with name, current size and content
hash.  The hash function (sha256 hex digest of the contents) is passed in as
a parameter of the model.  Returns the reply and the catalog as left by
get_shared_files. -/
def handle_file_list_request (hashFn : List Nat → List Char) (fs : Fs)
    (cat : Catalog) : Message × Catalog :=
  let r := get_shared_files fs cat
  let files := r.1.filterMap (fun n =>
    match get_file_path r.2 n with
    | some p =>
      if pathExists fs p then
        some ⟨n, (contentsOf fs p).length, hashFn (contentsOf fs p)⟩
      else none
    | none => none)
  (.file_list_response files, r.2)

/-! ### Client operations (get_peer_files, request_file) -/

/-- Result of get_peer_files: the file list if one was obtained, and whether
a data connection was opened. -/
structure ListResult where
  files : Option (List FileDescriptor)
  connected : Bool
deriving DecidableEq

/-- get_peer_files: when bluetooth.find_service returns no matching service,
return None without connecting; otherwise connect, send file_list_request,
receive one message, and return its files when it is a file_list_response
(None on any other outcome). -/
def get_peer_files (services : List Nat) (stream : List Nat) : ListResult :=
  match services with
  | [] => { files := none, connected := false }
  | _ :: _ =>
    match receiveMessage stream with
    | some (.file_list_response fs, _) => { files := some fs, connected := true }
    | _ => { files := none, connected := true }

/-- The receive loop of request_file: while fewer than size bytes have been
received, recv at most min(4096, size - received) bytes; an empty recv
(closed connection) breaks the loop.  The stream models the bytes the
connection will deliver before closing.  The fuel argument only bounds the
recursion (each pass consumes at least one byte or stops). -/
def recvLoopCore : Nat → List Nat → Nat → List Nat
  | 0, _, _ => []
  | fuel + 1, stream, remaining =>
    if remaining = 0 then []
    else
      let want := min 4096 remaining
      let chunk := stream.take want
      if chunk = [] then []
      else chunk ++ recvLoopCore fuel (stream.drop want) (remaining - chunk.length)

/-- The bytes request_file writes to the destination file. -/
def request_file_recv (stream : List Nat) (size : Nat) : List Nat :=
  recvLoopCore (size + 1) stream size

/-- Result of request_file: the returned flag and the destination file as
left on disk (none when the destination was never opened; the code never
removes the file once it has been created). -/
structure FetchOutcome where
  success : Bool
  destFile : Option (List Nat)
deriving DecidableEq

/-- request_file after service lookup: no service means failure without a
connection; otherwise receive the response; a failed receive or an
unsuccessful response means failure before the destination is opened; on a
success header, open the destination, run the receive loop, and return True
exactly when the byte count matches the declared size (on a shortfall the
incomplete transfer is logged and False returned, with the partial file left
in place). -/
def request_file (services : List Nat) (stream : List Nat) : FetchOutcome :=
  match services with
  | [] => { success := false, destFile := none }
  | _ :: _ =>
    match receiveMessage stream with
    | none => { success := false, destFile := none }
    | some (m, rest) =>
      match m with
      | .file_response_ok _ size =>
        let written := request_file_recv rest size
        { success := written.length == size, destFile := some written }
      | _ => { success := false, destFile := none }

/-! ### Peer registry (peer_discovery.py) -/

/-- One peer_info dictionary: address, display name, advertised port and
service name (None models the 'Unknown' placeholders), and the two liveness
timestamps. -/
structure PeerInfo where
  address : List Char
  name : List Char
  port : Option Nat
  service_name : Option (List Char)
  first_seen : Int
  last_seen : Int
deriving DecidableEq

/-- The discovery state: the peers dictionary and the last_seen defaultdict,
both keyed by address, in insertion order. -/
structure Registry where
  peers : List (List Char × PeerInfo)
  last_seen : List (List Char × Int)
deriving DecidableEq

/-- Python dict assignment: replace in place if the key exists, else append. -/
def dictSet {α : Type} : List (List Char × α) → List Char → α → List (List Char × α)
  | [], k, v => [(k, v)]
  | (k', v') :: rest, k, v =>
    if k = k' then (k, v) :: rest else (k', v') :: dictSet rest k v

/-- Python del: remove the entry with the given key. -/
def eraseKey {α : Type} : List (List Char × α) → List Char → List (List Char × α)
  | [], _ => []
  | (k', v') :: rest, k => if k = k' then rest else (k', v') :: eraseKey rest k

/-- The default display name built for a peer whose scan name is falsy:
Device- followed by the address without colons. -/
def deviceName (address : List Char) : List Char :=
  "Device-".toList ++ address.filter (fun c => c ≠ ':')

/-- _add_peer: build the peer_info with first_seen taken from the existing
record when present (current time otherwise) and last_seen set to the
current time, store it, refresh last_seen, and report whether this was a
first sighting (on_peer_found fires exactly then). -/
def add_peer (r : Registry) (address name : List Char) (svcPort : Option Nat)
    (svcName : Option (List Char)) (now : Int) : Registry × Bool :=
  let is_new := (alookup r.peers address).isNone
  let firstSeen :=
    match alookup r.peers address with
    | some old => old.first_seen
    | none => now
  let info : PeerInfo :=
    { address := address
      name := if name = [] then deviceName address else name
      port := svcPort
      service_name := svcName
      first_seen := firstSeen
      last_seen := now }
  ({ peers := dictSet r.peers address info
     last_seen := dictSet r.last_seen address now }, is_new)

/-- last_seen read through the defaultdict (a missing address reads as 0). -/
def lastSeenOf (r : Registry) (address : List Char) : Int :=
  (alookup r.last_seen address).getD 0

/-- get_peers: the peers seen within the last 120 seconds. -/
def get_peers (r : Registry) (now : Int) : List PeerInfo :=
  r.peers.filterMap (fun e =>
    if now - lastSeenOf r e.1 < 120 then some e.2 else none)

/-- Removing one address during cleanup: delete it from both dictionaries
and report the removed record (on_peer_lost fires with it). -/
def removeAddr (r : Registry) (a : List Char) : Registry × Option PeerInfo :=
  match alookup r.peers a with
  | some info =>
    ({ peers := eraseKey r.peers a, last_seen := eraseKey r.last_seen a }, some info)
  | none => (r, none)

/-- Processing of one stale address during cleanup: remove it and append the
fired peer-lost event, if any. -/
def cleanupStep (acc : Registry × List PeerInfo) (a : List Char) :
    Registry × List PeerInfo :=
  let s := removeAddr acc.1 a
  (s.1, acc.2 ++ s.2.toList)

/-- One pass of the _cleanup_loop body: collect the addresses whose
last_seen is more than 180 seconds old, then remove each (when still in
peers), firing one peer-lost event per removal.  Returns the new state and
the fired events in order. -/
def cleanup_once (r : Registry) (now : Int) : Registry × List PeerInfo :=
  let toRemove := (r.last_seen.filter (fun e => now - e.2 > 180)).map (fun e => e.1)
  toRemove.foldl cleanupStep (r, [])

/-- One upsert operation for sequences of _add_peer calls. -/
structure UpsertOp where
  address : List Char
  name : List Char
  port : Option Nat
  sname : Option (List Char)
  time : Int

/-- Apply a sequence of _add_peer calls. -/
def runUpserts (r : Registry) : List UpsertOp → Registry
  | [] => r
  | op :: ops => runUpserts (add_peer r op.address op.name op.port op.sname op.time).1 ops

/-- Registry well-formedness maintained by _add_peer: every stored record
carries its own key as its address field. -/
def addrConsistent (r : Registry) : Prop :=
  ∀ p ∈ r.peers, p.2.address = p.1

/-- The keys of both registry dictionaries are duplicate-free (as in a
Python dict). -/
def keysNodup (r : Registry) : Prop :=
  (r.peers.map (fun p => p.1)).Nodup ∧ (r.last_seen.map (fun p => p.1)).Nodup

/-! ## Lemmas: scanners -/

theorem chomp_append (pre s : List Char) : chomp pre (pre ++ s) = some s := by
  induction pre with
  | nil => rfl
  | cons c pre ih => simp [chomp, ih]

theorem splitAtQuote_append (pre rest : List Char) (h : ∀ c ∈ pre, c ≠ '\"') :
    splitAtQuote (pre ++ '\"' :: rest) = some (pre, rest) := by
  induction pre with
  | nil => simp [splitAtQuote]
  | cons c pre ih =>
    have hc : c ≠ '\"' := h c (by simp)
    have ih' := ih (fun x hx => h x (by simp [hx]))
    simp only [List.cons_append, splitAtQuote, if_neg hc, List.append_eq, ih',
      mapCons, Option.map_some']

theorem hexVal_hexDigitChar : ∀ d : Nat, d < 16 → hexVal (hexDigitChar d) = some d := by
  decide

theorem char_valid_ranges (c : Char) :
    c.toNat < 55296 ∨ (57344 ≤ c.toNat ∧ c.toNat < 1114112) := by
  have h : c.toNat < 0xd800 ∨ (0xdfff < c.toNat ∧ c.toNat < 0x110000) := c.valid
  omega

theorem or_mul_1024 (a b : Nat) (hb : b < 1024) : a * 1024 ||| b = a * 1024 + b := by
  have hb' : b < 2 ^ 10 := by norm_num; exact hb
  have h := Nat.mul_add_lt_is_or hb' a
  have e : 2 ^ 10 * a = a * 1024 := by ring
  rw [e] at h
  exact h.symm

theorem and_1023_eq (x : Nat) (h : x < 1024) : x &&& 1023 = x := by
  have h' : x < 2 ^ 10 := by norm_num; exact h
  have := Nat.and_pow_two_sub_one_of_lt_two_pow h'
  norm_num at this
  exact this

theorem and_1023_mod (x : Nat) : x &&& 1023 = x % 1024 := by
  have := Nat.and_pow_two_sub_one_eq_mod x 10
  norm_num at this
  exact this

theorem hex4Val_hex4Chars (n : Nat) (hn : n < 65536) (tail : List Char) :
    hex4Val (hex4Chars n ++ tail) = some (n, tail) := by
  have e3 := hexVal_hexDigitChar (n / 4096 % 16) (by omega)
  have e2 := hexVal_hexDigitChar (n / 256 % 16) (by omega)
  have e1 := hexVal_hexDigitChar (n / 16 % 16) (by omega)
  have e0 := hexVal_hexDigitChar (n % 16) (by omega)
  simp only [hex4Chars, List.cons_append, List.nil_append, hex4Val, e3, e2, e1, e0,
    Option.some_bind]
  have en : 4096 * (n / 4096 % 16) + 256 * (n / 256 % 16) + 16 * (n / 16 % 16) + n % 16 = n := by
    omega
  rw [en]

theorem escStep_u (n : Nat) (hn : n < 65536) (hval : n < 55296 ∨ 57344 ≤ n)
    (tail : List Char) :
    escStep ('u' :: (hex4Chars n ++ tail)) = some (Char.ofNat n, tail) := by
  simp [escStep, hex4Val_hex4Chars n hn tail, hval]

theorem escStep_pair (n m : Nat) (h1 : 55296 ≤ n) (h2 : n < 56320)
    (h3 : 56320 ≤ m) (h4 : m < 57344) (tail : List Char) :
    escStep ('u' :: (hex4Chars n ++ ('\\' :: 'u' :: (hex4Chars m ++ tail)))) =
      some (Char.ofNat (65536 + ((n - 55296) <<< 10 ||| (m - 56320))), tail) := by
  have hnot : ¬(n < 55296 ∨ 57344 ≤ n) := by omega
  have hm : 56320 ≤ m ∧ m < 57344 := ⟨h3, h4⟩
  simp [escStep, hex4Val_hex4Chars n (by omega), hex4Val_hex4Chars m (by omega), hnot, h2, hm]

theorem unescCore_step (f : Nat) (c : Char) (t : List Char) :
    unescCore (f + 1) (escapeChar c ++ t) = mapCons c (unescCore f t) := by
  by_cases hq : c = '\"'
  · subst hq; simp [escapeChar, unescCore, escStep]
  by_cases hb : c = '\\'
  · subst hb; simp [escapeChar, unescCore, escStep, hq]
  by_cases h8 : c.toNat = 8
  · have hc : Char.ofNat 8 = c := by rw [← h8, Char.ofNat_toNat]
    simp [escapeChar, unescCore, escStep, hq, hb, h8, hc]
    rw [hc]
  by_cases h9 : c.toNat = 9
  · have hc : Char.ofNat 9 = c := by rw [← h9, Char.ofNat_toNat]
    simp [escapeChar, unescCore, escStep, hq, hb, h8, h9, hc]
    rw [hc]
  by_cases h10 : c.toNat = 10
  · have hc : Char.ofNat 10 = c := by rw [← h10, Char.ofNat_toNat]
    simp [escapeChar, unescCore, escStep, hq, hb, h8, h9, h10, hc]
    rw [hc]
  by_cases h12 : c.toNat = 12
  · have hc : Char.ofNat 12 = c := by rw [← h12, Char.ofNat_toNat]
    simp [escapeChar, unescCore, escStep, hq, hb, h8, h9, h10, h12, hc]
    rw [hc]
  by_cases h13 : c.toNat = 13
  · have hc : Char.ofNat 13 = c := by rw [← h13, Char.ofNat_toNat]
    simp [escapeChar, unescCore, escStep, hq, hb, h8, h9, h10, h12, h13, hc]
    rw [hc]
  by_cases hpr : 32 ≤ c.toNat ∧ c.toNat ≤ 126
  · have hge : ¬(c.toNat < 32) := by omega
    simp [escapeChar, unescCore, hq, hb, h8, h9, h10, h12, h13, hpr, hge]
  by_cases hbmp : c.toNat < 65536
  · have hval : c.toNat < 55296 ∨ 57344 ≤ c.toNat := by
      have := char_valid_ranges c
      omega
    have heq : escapeChar c ++ t = '\\' :: 'u' :: (hex4Chars c.toNat ++ t) := by
      simp [escapeChar, hq, hb, h8, h9, h10, h12, h13, hpr, hbmp]
    rw [heq]
    simp [unescCore, escStep_u c.toNat hbmp hval t, Char.ofNat_toNat]
  · -- astral plane: the encoder emits a surrogate pair
    have hrange := char_valid_ranges c
    have hbig : 65536 ≤ c.toNat := by omega
    have hshift : (c.toNat - 65536) >>> 10 = (c.toNat - 65536) / 1024 := by
      rw [Nat.shiftRight_eq_div_pow]
    have hdivlt : (c.toNat - 65536) / 1024 < 1024 := by omega
    have hhi : 55296 ||| ((c.toNat - 65536) >>> 10 &&& 1023) =
        55296 + (c.toNat - 65536) / 1024 := by
      rw [hshift, and_1023_eq _ hdivlt]
      have := or_mul_1024 54 ((c.toNat - 65536) / 1024) hdivlt
      norm_num at this
      exact this
    have hlo : 56320 ||| ((c.toNat - 65536) &&& 1023) =
        56320 + (c.toNat - 65536) % 1024 := by
      rw [and_1023_mod]
      have := or_mul_1024 55 ((c.toNat - 65536) % 1024) (by omega)
      norm_num at this
      exact this
    have heq : escapeChar c ++ t =
        '\\' :: 'u' :: (hex4Chars (55296 + (c.toNat - 65536) / 1024) ++
          ('\\' :: 'u' :: (hex4Chars (56320 + (c.toNat - 65536) % 1024) ++ t))) := by
      simp [escapeChar, hq, hb, h8, h9, h10, h12, h13, hpr, hbmp, hhi, hlo,
        List.append_assoc]
    rw [heq]
    have hstep := escStep_pair (55296 + (c.toNat - 65536) / 1024)
      (56320 + (c.toNat - 65536) % 1024) (by omega) (by omega) (by omega) (by omega) t
    have hval : 65536 + ((55296 + (c.toNat - 65536) / 1024 - 55296) <<< 10 |||
        (56320 + (c.toNat - 65536) % 1024 - 56320)) = c.toNat := by
      have hs : 55296 + (c.toNat - 65536) / 1024 - 55296 = (c.toNat - 65536) / 1024 := by
        omega
      have ht : 56320 + (c.toNat - 65536) % 1024 - 56320 = (c.toNat - 65536) % 1024 := by
        omega
      rw [hs, ht, Nat.shiftLeft_eq]
      have h2p : (2 : Nat) ^ 10 = 1024 := by norm_num
      rw [h2p, or_mul_1024 _ _ (by omega)]
      omega
    rw [hval, Char.ofNat_toNat] at hstep
    simp [unescCore, hstep]

theorem unescCore_escapeString (s : List Char) :
    ∀ fuel rest, s.length < fuel →
      unescCore fuel (escapeString s ++ '\"' :: rest) = some (s, rest) := by
  induction s with
  | nil =>
    intro fuel rest h
    cases fuel with
    | zero => omega
    | succ f => simp [escapeString, unescCore]
  | cons c s ih =>
    intro fuel rest h
    cases fuel with
    | zero => omega
    | succ f =>
      have hs : s.length < f := by simp at h; omega
      simp only [escapeString, List.append_assoc, unescCore_step, ih f rest hs, mapCons,
        Option.map_some']

theorem escapeString_length_ge (s : List Char) : s.length ≤ (escapeString s).length := by
  induction s with
  | nil => simp [escapeString]
  | cons c s ih =>
    have hne : escapeChar c ≠ [] := by
      by_cases hq : c = '\"'
      · subst hq; simp [escapeChar]
      by_cases hb : c = '\\'
      · subst hb; simp [escapeChar, hq]
      simp only [escapeChar, if_neg hq, if_neg hb]
      split <;> try simp
      split <;> try simp
      split <;> try simp
      split <;> try simp
      split <;> try simp
      split <;> try simp
      split <;> simp
    have : 1 ≤ (escapeChar c).length := by
      cases hc : escapeChar c with
      | nil => exact absurd hc hne
      | cons x xs => simp
    simp only [escapeString, List.length_append, List.length_cons]
    omega

theorem unesc_escapeString (s rest : List Char) :
    unesc (escapeString s ++ '\"' :: rest) = some (s, rest) := by
  apply unescCore_escapeString
  have := escapeString_length_ge s
  simp only [List.length_append, List.length_cons]
  omega

theorem chompStr_jstr (s rest : List Char) : chompStr (jstr s ++ rest) = some (s, rest) := by
  simp only [jstr, List.cons_append, chompStr, List.append_assoc, List.nil_append]
  rw [if_pos trivial]
  exact unesc_escapeString s rest

/-! ## Lemmas: decimal numbers -/

theorem digitChar_facts : ∀ n : Nat, n < 10 →
    isDigitC (digitChar n) = true ∧ digitValC (digitChar n) = n := by decide

theorem parseDigits_append (fuel : Nat) : ∀ n acc rest, n < fuel →
    parseDigits (natToDigitsCore fuel n ++ rest) acc =
      parseDigits rest (acc * 10 ^ (natToDigitsCore fuel n).length + n) := by
  induction fuel with
  | zero => intro n acc rest h; omega
  | succ f ih =>
    intro n acc rest h
    by_cases h10 : n < 10
    · have hd := digitChar_facts n h10
      simp [natToDigitsCore, if_pos h10, parseDigits, hd.1, hd.2]
    · have hdiv : n / 10 < f := by omega
      have hd := digitChar_facts (n % 10) (by omega)
      simp only [natToDigitsCore, if_neg h10, List.append_assoc, List.cons_append,
        List.nil_append, ih (n / 10) acc _ hdiv, parseDigits, hd.1, if_true, hd.2,
        List.length_append, List.length_cons, List.length_nil]
      congr 1
      rw [pow_succ, ← Nat.mul_assoc]
      generalize acc * 10 ^ (natToDigitsCore f (n / 10)).length = q
      omega

theorem parseDigits_stop (t : List Char) (acc : Nat)
    (h : ∀ c, t.head? = some c → isDigitC c = false) :
    parseDigits t acc = (acc, t) := by
  cases t with
  | nil => rfl
  | cons c t' => simp [parseDigits, h c rfl]

theorem natToDigitsCore_head (fuel : Nat) : ∀ n, n < fuel →
    ∃ d ds, natToDigitsCore fuel n = d :: ds ∧ isDigitC d = true := by
  induction fuel with
  | zero => intro n h; omega
  | succ f ih =>
    intro n h
    by_cases h10 : n < 10
    · exact ⟨digitChar n, [], by simp [natToDigitsCore, h10], (digitChar_facts n h10).1⟩
    · obtain ⟨d, ds, hds, hd⟩ := ih (n / 10) (by omega)
      exact ⟨d, ds ++ [digitChar (n % 10)], by simp [natToDigitsCore, h10, hds], hd⟩

theorem chompNat_natToDigits (n : Nat) (t : List Char)
    (h : ∀ c, t.head? = some c → isDigitC c = false) :
    chompNat (natToDigits n ++ t) = some (n, t) := by
  obtain ⟨d, ds, hds, hd⟩ := natToDigitsCore_head (n + 1) n (by omega)
  have hfull := parseDigits_append (n + 1) n 0 t (by omega)
  rw [hds] at hfull
  simp only [List.cons_append, parseDigits, hd, if_true, Nat.zero_mul, Nat.zero_add,
    digitValC, List.append_eq] at hfull
  rw [natToDigits, hds]
  simp only [List.cons_append, chompNat, hd, if_true, digitValC, List.append_eq]
  rw [hfull, parseDigits_stop t n h]

/-! ## Lemmas: message payload round trip -/

theorem chomp_split (p q s : List Char) : chomp (p ++ q) s = (chomp p s).bind (chomp q) := by
  induction p generalizing s with
  | nil => simp [chomp]
  | cons c p ih =>
    cases s with
    | nil => simp [chomp]
    | cons x s =>
      by_cases hx : x = c
      · simp [chomp, hx, ih]
      · simp [chomp, hx]

theorem chompFile_dumpFile (fd : FileDescriptor) (rest : List Char) :
    chompFile (dumpFile fd ++ rest) = some (fd, rest) := by
  have hsz : (", \"size\": ").toList ++ (natToDigits fd.size ++
      ((", \"hash\": ").toList ++ (jstr fd.hash ++ (("\x7d").toList ++ rest)))) =
      (", \"size\": ").toList ++ (natToDigits fd.size ++
      (',' :: ((" \"hash\": ").toList ++ (jstr fd.hash ++ (("\x7d").toList ++ rest))))) := by
    rfl
  simp only [dumpFile, List.append_assoc, chompFile, hsz]
  rw [chomp_append]
  simp only [Option.some_bind]
  rw [chompStr_jstr]
  simp only [Option.some_bind]
  rw [chomp_append]
  simp only [Option.some_bind]
  rw [chompNat_natToDigits _ _ (by intro c hc; simp at hc; rw [← hc]; rfl)]
  simp only [Option.some_bind]
  have hrw : (',' :: ((" \"hash\": ").toList ++ (jstr fd.hash ++ (("\x7d").toList ++ rest)))) =
      (", \"hash\": ").toList ++ (jstr fd.hash ++ (("\x7d").toList ++ rest)) := rfl
  rw [hrw, chomp_append]
  simp only [Option.some_bind]
  rw [chompStr_jstr]
  simp only [Option.some_bind]
  rw [chomp_append]
  simp only [Option.map_some']


theorem dumpFile_head (fd : FileDescriptor) : ∃ t, dumpFile fd = '\x7b' :: t := by
  refine ⟨("\"name\": ").toList ++ (jstr fd.name ++ ((", \"size\": ").toList ++
    (natToDigits fd.size ++ ((", \"hash\": ").toList ++ (jstr fd.hash ++ ("\x7d").toList))))), ?_⟩
  simp only [dumpFile, List.append_assoc]
  rfl

theorem dumpFiles_cons_head (f : FileDescriptor) (fs : List FileDescriptor) :
    ∃ t, dumpFiles (f :: fs) = '\x7b' :: t := by
  obtain ⟨t, ht⟩ := dumpFile_head f
  cases fs with
  | nil => exact ⟨t, by simp [dumpFiles, ht]⟩
  | cons g gs =>
    exact ⟨t ++ ((", ").toList ++ dumpFiles (g :: gs)), by simp [dumpFiles, ht]⟩

theorem dumpFiles_length_ge : ∀ files : List FileDescriptor,
    files.length ≤ (dumpFiles files).length := by
  intro files
  induction files with
  | nil => simp [dumpFiles]
  | cons f fs ih =>
    obtain ⟨t, ht⟩ := dumpFile_head f
    cases fs with
    | nil => simp [dumpFiles, ht]
    | cons g gs =>
      have := ih
      simp only [dumpFiles, ht] at *
      simp only [List.length_append, List.length_cons] at *
      omega

theorem chompFiles_dumpFiles : ∀ files : List FileDescriptor, files ≠ [] →
    ∀ fuel rest, files.length ≤ fuel →
      chompFiles fuel (dumpFiles files ++ ']' :: rest) = some (files, rest) := by
  intro files
  induction files with
  | nil => intro h; exact absurd rfl h
  | cons f fs ih =>
    intro _ fuel rest hlen
    cases fuel with
    | zero => simp at hlen
    | succ fl =>
      cases fs with
      | nil =>
        simp only [dumpFiles, chompFiles, chompFile_dumpFile, Option.some_bind]
        have h1 : chomp ((", ").toList) (']' :: rest) = none := by
          simp [chomp]
        have h2 : chomp (("]").toList) (']' :: rest) = some rest := by
          simp [chomp]
        rw [h1, h2]
        rfl
      | cons g gs =>
        have hne : (g :: gs : List FileDescriptor) ≠ [] := by simp
        have hl : (g :: gs).length ≤ fl := by simp at hlen ⊢; omega
        simp only [dumpFiles, List.append_assoc, List.cons_append, chompFiles,
          chompFile_dumpFile, Option.some_bind]
        rw [chomp_append]
        simp only [ih hne fl rest hl, Option.map_some']

theorem loadsMessage_dumpsMessage (m : Message) :
    loadsMessage (dumpsMessage m) = some m := by
  cases m with
  | ping => decide
  | pong => decide
  | file_list_request => decide
  | file_request f =>
    have hsplit : ("\x7b\"type\": \"file_request\", \"filename\": ").toList =
        ("\x7b\"type\": \"").toList ++
          (("file_request").toList ++ ('\"' :: (", \"filename\": ").toList)) := by rfl
    simp only [dumpsMessage, hsplit, List.append_assoc, List.cons_append]
    simp only [loadsMessage, chomp_append, Option.some_bind]
    rw [splitAtQuote_append (("file_request").toList) _ (by decide)]
    simp only [Option.some_bind]
    rw [if_neg (by decide), if_neg (by decide), if_neg (by decide), if_neg (by decide)]
    simp only [if_true, eq_self_iff_true]
    rw [chomp_append]
    simp only [Option.some_bind]
    rw [chompStr_jstr]
    simp only [Option.some_bind]
    simp
  | file_response_ok f n =>
    have hsplit : ("\x7b\"type\": \"file_response\", \"success\": true, \"filename\": ").toList =
        ("\x7b\"type\": \"").toList ++
          (("file_response").toList ++
            ('\"' :: (", \"success\": true, \"filename\": ").toList)) := by rfl
    simp only [dumpsMessage, hsplit, List.append_assoc, List.cons_append]
    simp only [loadsMessage, chomp_append, Option.some_bind]
    rw [splitAtQuote_append (("file_response").toList) _ (by decide)]
    simp only [Option.some_bind]
    rw [if_neg (by decide), if_neg (by decide), if_neg (by decide), if_neg (by decide),
      if_neg (by decide)]
    simp only [if_true, eq_self_iff_true]
    rw [chomp_append]
    simp only [Option.some_bind, chompStr_jstr]
    rw [chomp_append]
    simp only [Option.some_bind]
    rw [chompNat_natToDigits _ _ (by intro c hc; simp at hc; rw [← hc]; rfl)]
    simp only [Option.some_bind]
    simp
  | file_response_err e =>
    have hsplit : ("\x7b\"type\": \"file_response\", \"success\": false, \"error\": ").toList =
        ("\x7b\"type\": \"").toList ++
          (("file_response").toList ++
            ('\"' :: (", \"success\": false, \"error\": ").toList)) := by rfl
    simp only [dumpsMessage, hsplit, List.append_assoc, List.cons_append]
    simp only [loadsMessage, chomp_append, Option.some_bind]
    rw [splitAtQuote_append (("file_response").toList) _ (by decide)]
    simp only [Option.some_bind]
    rw [if_neg (by decide), if_neg (by decide), if_neg (by decide), if_neg (by decide),
      if_neg (by decide)]
    simp only [if_true, eq_self_iff_true]
    have hnone : chomp ((", \"success\": true, \"filename\": ").toList)
        ((", \"success\": false, \"error\": ").toList ++ (jstr e ++ ("\x7d").toList)) = none := by
      have d1 : (", \"success\": true, \"filename\": ").toList =
          (", \"success\": ").toList ++ ('t' :: ("rue, \"filename\": ").toList) := rfl
      have d2 : (", \"success\": false, \"error\": ").toList =
          (", \"success\": ").toList ++ ('f' :: ("alse, \"error\": ").toList) := rfl
      rw [d1, d2, List.append_assoc, chomp_split, chomp_append]
      simp [chomp]
    rw [hnone]
    rw [chomp_append]
    simp only [Option.some_bind, chompStr_jstr]
    simp
  | file_list_response files =>
    cases files with
    | nil => decide
    | cons f fs =>
      have hsplit : ("\x7b\"type\": \"file_list_response\", \"files\": [").toList =
          ("\x7b\"type\": \"").toList ++
            (("file_list_response").toList ++ ('\"' :: (", \"files\": [").toList)) := by rfl
      simp only [dumpsMessage, hsplit, List.append_assoc, List.cons_append]
      simp only [loadsMessage, chomp_append, Option.some_bind]
      rw [splitAtQuote_append (("file_list_response").toList) _ (by decide)]
      simp only [Option.some_bind]
      rw [if_neg (by decide), if_neg (by decide), if_neg (by decide)]
      simp only [if_true, eq_self_iff_true]
      rw [chomp_append]
      simp only [Option.some_bind]
      have hne : ¬(dumpFiles (f :: fs) ++ ("]\x7d").toList = ("]\x7d").toList) := by
        obtain ⟨t, ht⟩ := dumpFiles_cons_head f fs
        rw [ht]
        simp
      rw [if_neg hne]
      have hb : ("]\x7d").toList = ']' :: ("\x7d").toList := rfl
      rw [hb]
      have hlen : (f :: fs).length ≤ (dumpFiles (f :: fs) ++ ']' :: ("\x7d").toList).length := by
        have := dumpFiles_length_ge (f :: fs)
        simp only [List.length_append, List.length_cons] at this ⊢
        omega
      rw [chompFiles_dumpFiles (f :: fs) (by simp) _ _ hlen]
      simp only [Option.some_bind]
      simp


/-! ## Lemmas: UTF-8 and ASCII payloads -/

theorem utf8Encode_ascii_map (s : List Char) (h : ∀ c ∈ s, c.toNat < 128) :
    utf8Encode s = s.map Char.toNat := by
  induction s with
  | nil => rfl
  | cons c s ih =>
    have hc : c.toNat < 128 := h c (by simp)
    simp [utf8Encode, utf8EncodeChar, hc, ih (fun x hx => h x (by simp [hx]))]

theorem utf8DecodeCore_ascii (fuel : Nat) : ∀ s : List Char, (∀ c ∈ s, c.toNat < 128) →
    s.length ≤ fuel → utf8DecodeCore fuel (s.map Char.toNat) = some s := by
  induction fuel with
  | zero =>
    intro s h hl
    cases s with
    | nil => rfl
    | cons c s => simp at hl
  | succ f ih =>
    intro s h hl
    cases s with
    | nil => rfl
    | cons c s =>
      have hc : c.toNat < 128 := h c (by simp)
      have ihs := ih s (fun x hx => h x (by simp [hx])) (by simp at hl; omega)
      simp [utf8DecodeCore, utf8Step, hc, ihs, Char.ofNat_toNat]

theorem utf8Decode_encode_ascii (s : List Char) (h : ∀ c ∈ s, c.toNat < 128) :
    utf8Decode (utf8Encode s) = some s := by
  rw [utf8Encode_ascii_map s h, utf8Decode]
  exact utf8DecodeCore_ascii _ s h (by simp)

theorem utf8Encode_length_ascii (s : List Char) (h : ∀ c ∈ s, c.toNat < 128) :
    (utf8Encode s).length = s.length := by
  rw [utf8Encode_ascii_map s h, List.length_map]

theorem hexDigitChar_ascii : ∀ d : Nat, d < 16 → (hexDigitChar d).toNat < 128 := by decide

theorem hex4Chars_ascii (n : Nat) : ∀ x ∈ hex4Chars n, x.toNat < 128 := by
  intro x hx
  simp only [hex4Chars, List.mem_cons, List.not_mem_nil, or_false] at hx
  rcases hx with h | h | h | h <;>
    (subst h; exact hexDigitChar_ascii _ (Nat.mod_lt _ (by omega)))

theorem mem_lit_ascii {x : Char} {l : List Char}
    (hall : l.all (fun y => decide (y.toNat < 128)) = true) (hx : x ∈ l) :
    x.toNat < 128 := by
  have := List.all_eq_true.mp hall x hx
  simpa using this

theorem escapeChar_ascii (c : Char) : ∀ x ∈ escapeChar c, x.toNat < 128 := by
  intro x hx
  by_cases hq : c = '\"'
  · subst hq; simp [escapeChar] at hx; rcases hx with h | h <;> subst h <;> decide
  by_cases hb : c = '\\'
  · subst hb; simp [escapeChar, hq] at hx; subst hx; decide
  by_cases h8 : c.toNat = 8
  · simp [escapeChar, hq, hb, h8] at hx; rcases hx with h | h <;> subst h <;> decide
  by_cases h9 : c.toNat = 9
  · simp [escapeChar, hq, hb, h8, h9] at hx; rcases hx with h | h <;> subst h <;> decide
  by_cases h10 : c.toNat = 10
  · simp [escapeChar, hq, hb, h8, h9, h10] at hx
    rcases hx with h | h <;> subst h <;> decide
  by_cases h12 : c.toNat = 12
  · simp [escapeChar, hq, hb, h8, h9, h10, h12] at hx
    rcases hx with h | h <;> subst h <;> decide
  by_cases h13 : c.toNat = 13
  · simp [escapeChar, hq, hb, h8, h9, h10, h12, h13] at hx
    rcases hx with h | h <;> subst h <;> decide
  by_cases hpr : 32 ≤ c.toNat ∧ c.toNat ≤ 126
  · simp [escapeChar, hq, hb, h8, h9, h10, h12, h13, hpr] at hx
    subst hx; omega
  by_cases hbmp : c.toNat < 65536
  · simp [escapeChar, hq, hb, h8, h9, h10, h12, h13, hpr, hbmp] at hx
    rcases hx with h | h | h
    · subst h; decide
    · subst h; decide
    · exact hex4Chars_ascii _ x h
  · simp [escapeChar, hq, hb, h8, h9, h10, h12, h13, hpr, hbmp] at hx
    rcases hx with h | h | h | h | h | h
    · subst h; decide
    · subst h; decide
    · exact hex4Chars_ascii _ x h
    · subst h; decide
    · subst h; decide
    · exact hex4Chars_ascii _ x h

theorem escapeString_ascii (s : List Char) : ∀ x ∈ escapeString s, x.toNat < 128 := by
  induction s with
  | nil => simp [escapeString]
  | cons c s ih =>
    intro x hx
    simp only [escapeString, List.mem_append] at hx
    rcases hx with h | h
    · exact escapeChar_ascii c x h
    · exact ih x h

theorem jstr_ascii (s : List Char) : ∀ x ∈ jstr s, x.toNat < 128 := by
  intro x hx
  simp only [jstr, List.mem_cons, List.mem_append] at hx
  rcases hx with h | h | h
  · subst h; decide
  · exact escapeString_ascii s x h
  · simp at h; subst h; decide

theorem digitChar_ascii : ∀ d : Nat, d < 10 → (digitChar d).toNat < 128 := by decide

theorem natToDigitsCore_ascii (fuel : Nat) : ∀ n, ∀ x ∈ natToDigitsCore fuel n,
    x.toNat < 128 := by
  induction fuel with
  | zero => simp [natToDigitsCore]
  | succ f ih =>
    intro n x hx
    by_cases h10 : n < 10
    · simp [natToDigitsCore, h10] at hx
      subst hx
      exact digitChar_ascii n h10
    · simp only [natToDigitsCore, if_neg h10, List.mem_append, List.mem_cons,
        List.not_mem_nil, or_false] at hx
      rcases hx with h | h
      · exact ih (n / 10) x h
      · subst h; exact digitChar_ascii _ (Nat.mod_lt _ (by omega))

theorem natToDigits_ascii (n : Nat) : ∀ x ∈ natToDigits n, x.toNat < 128 :=
  natToDigitsCore_ascii (n + 1) n

theorem dumpFile_ascii (fd : FileDescriptor) : ∀ x ∈ dumpFile fd, x.toNat < 128 := by
  intro x hx
  simp only [dumpFile, List.mem_append] at hx
  rcases hx with ((((((h | h) | h) | h) | h) | h) | h)
  · exact mem_lit_ascii (by decide) h
  · exact jstr_ascii _ x h
  · exact mem_lit_ascii (by decide) h
  · exact natToDigits_ascii _ x h
  · exact mem_lit_ascii (by decide) h
  · exact jstr_ascii _ x h
  · exact mem_lit_ascii (by decide) h

theorem dumpFiles_ascii (files : List FileDescriptor) : ∀ x ∈ dumpFiles files,
    x.toNat < 128 := by
  induction files with
  | nil => simp [dumpFiles]
  | cons f fs ih =>
    intro x hx
    cases fs with
    | nil => exact dumpFile_ascii f x hx
    | cons g gs =>
      simp only [dumpFiles, List.mem_append] at hx
      rcases hx with (h | h) | h
      · exact dumpFile_ascii f x h
      · exact mem_lit_ascii (by decide) h
      · exact ih x h

theorem dumpsMessage_ascii (m : Message) : ∀ x ∈ dumpsMessage m, x.toNat < 128 := by
  intro x hx
  cases m with
  | ping => exact mem_lit_ascii (by decide) hx
  | pong => exact mem_lit_ascii (by decide) hx
  | file_list_request => exact mem_lit_ascii (by decide) hx
  | file_list_response files =>
    simp only [dumpsMessage, List.mem_append] at hx
    rcases hx with (h | h) | h
    · exact mem_lit_ascii (by decide) h
    · exact dumpFiles_ascii files x h
    · exact mem_lit_ascii (by decide) h
  | file_request f =>
    simp only [dumpsMessage, List.mem_append] at hx
    rcases hx with (h | h) | h
    · exact mem_lit_ascii (by decide) h
    · exact jstr_ascii f x h
    · exact mem_lit_ascii (by decide) h
  | file_response_ok f n =>
    simp only [dumpsMessage, List.mem_append] at hx
    rcases hx with (((h | h) | h) | h) | h
    · exact mem_lit_ascii (by decide) h
    · exact jstr_ascii f x h
    · exact mem_lit_ascii (by decide) h
    · exact natToDigits_ascii n x h
    · exact mem_lit_ascii (by decide) h
  | file_response_err e =>
    simp only [dumpsMessage, List.mem_append] at hx
    rcases hx with (h | h) | h
    · exact mem_lit_ascii (by decide) h
    · exact jstr_ascii e x h
    · exact mem_lit_ascii (by decide) h

/-! ## Lemmas: framing -/

theorem fromBytes_toBytes (n : Nat) (h : n < 4294967296) :
    fromBytesBE (toBytes4BE n) = n := by
  simp [toBytes4BE, fromBytesBE, List.foldl]
  omega

theorem receiveExact_append (xs rest : List Nat) :
    receiveExact (xs ++ rest) xs.length = some (xs, rest) := by
  unfold receiveExact
  rw [if_neg (by simp [List.length_append])]
  rw [List.take_left, List.drop_left]

theorem dumps_head (m : Message) : ∃ t, dumpsMessage m = '\x7b' :: t := by
  cases m with
  | ping => exact ⟨_, rfl⟩
  | pong => exact ⟨_, rfl⟩
  | file_list_request => exact ⟨_, rfl⟩
  | file_list_response files => exact ⟨_, rfl⟩
  | file_request f => exact ⟨_, rfl⟩
  | file_response_ok f n => exact ⟨_, rfl⟩
  | file_response_err e => exact ⟨_, rfl⟩

theorem utf8Encode_dumps_ne_nil (m : Message) : utf8Encode (dumpsMessage m) ≠ [] := by
  obtain ⟨t, ht⟩ := dumps_head m
  rw [ht]
  show utf8EncodeChar (('\x7b').toNat) ++ utf8Encode t ≠ []
  rw [show utf8EncodeChar (('\x7b').toNat) = [123] from rfl]
  simp

theorem receiveMessage_frame (m : Message) (extra : List Nat)
    (h : (utf8Encode (dumpsMessage m)).length ≤ 1048576) :
    receiveMessage (frameOf m ++ extra) = some (m, extra) := by
  unfold frameOf receiveMessage
  rw [List.append_assoc]
  have h4 : (4 : Nat) = (toBytes4BE (utf8Encode (dumpsMessage m)).length).length := rfl
  rw [h4, receiveExact_append]
  simp only
  rw [fromBytes_toBytes _ (by omega)]
  rw [if_neg (by omega)]
  rw [receiveExact_append]
  simp only
  rw [if_neg (utf8Encode_dumps_ne_nil m)]
  rw [utf8Decode_encode_ascii _ (dumpsMessage_ascii m)]
  simp only [loadsMessage_dumpsMessage]


theorem escapeString_replicate_a (k : Nat) :
    escapeString (List.replicate k 'a') = List.replicate k 'a' := by
  induction k with
  | zero => rfl
  | succ n ih =>
    simp [List.replicate_succ, escapeString, ih, show escapeChar 'a' = ['a'] from by decide]

/-! ## Lemmas: client receive loop and server chunking -/

theorem recvLoopCore_take (fuel : Nat) : ∀ (stream : List Nat) (remaining : Nat),
    remaining < fuel → recvLoopCore fuel stream remaining = stream.take remaining := by
  induction fuel with
  | zero => intro stream remaining h; omega
  | succ f ih =>
    intro stream remaining h
    by_cases h0 : remaining = 0
    · subst h0; simp [recvLoopCore]
    · simp only [recvLoopCore, if_neg h0]
      by_cases hs : stream = []
      · subst hs; simp
      · have hmin : ¬(min 4096 remaining = 0) := by omega
        have hchunk : stream.take (min 4096 remaining) ≠ [] := by
          simp [List.take_eq_nil_iff, hs, hmin]
        rw [if_neg hchunk]
        have hlen : (stream.take (min 4096 remaining)).length =
            min (min 4096 remaining) stream.length := List.length_take _ _
        by_cases hlong : stream.length ≤ min 4096 remaining
        · have htake : stream.take (min 4096 remaining) = stream :=
            List.take_of_length_le hlong
          have hdrop : stream.drop (min 4096 remaining) = [] :=
            List.drop_eq_nil_of_le hlong
          have hslen : ¬(stream.length = 0) := by
            intro hzero
            exact hs (List.eq_nil_of_length_eq_zero hzero)
          have hr : stream.length ≤ remaining := le_trans hlong (min_le_right _ _)
          rw [htake, hdrop]
          rw [ih [] (remaining - stream.length) (by omega)]
          have h2 : List.take remaining stream = stream := List.take_of_length_le hr
          rw [h2]
          simp
        · have hwl : min 4096 remaining ≤ stream.length := by omega
          have htl : (stream.take (min 4096 remaining)).length = min 4096 remaining := by
            rw [hlen]; omega
          rw [htl]
          rw [ih (stream.drop (min 4096 remaining)) (remaining - min 4096 remaining)
            (by omega)]
          rw [← List.take_add]
          have : min 4096 remaining + (remaining - min 4096 remaining) = remaining := by
            omega
          rw [this]

theorem request_file_recv_take (stream : List Nat) (size : Nat) :
    request_file_recv stream size = stream.take size :=
  recvLoopCore_take (size + 1) stream size (by omega)

theorem fileChunksCore_flatten (fuel : Nat) : ∀ data : List Nat, data.length < fuel →
    (fileChunksCore fuel data).flatten = data := by
  induction fuel with
  | zero => intro data h; omega
  | succ f ih =>
    intro data h
    by_cases hd : data = []
    · subst hd; simp [fileChunksCore]
    · have hlen : 1 ≤ data.length := by
        cases data with
        | nil => exact absurd rfl hd
        | cons b bs => simp
      simp only [fileChunksCore, if_neg hd, List.flatten_cons]
      rw [ih (data.drop 4096) (by simp [List.length_drop]; omega)]
      exact List.take_append_drop 4096 data

theorem fileChunks_flatten (data : List Nat) : (fileChunks data).flatten = data :=
  fileChunksCore_flatten _ _ (by omega)

theorem fileChunksCore_bounds (fuel : Nat) : ∀ (data : List Nat), ∀ c ∈ fileChunksCore fuel data,
    c.length ≤ 4096 ∧ c ≠ [] := by
  induction fuel with
  | zero => simp [fileChunksCore]
  | succ f ih =>
    intro data c hc
    by_cases hd : data = []
    · subst hd; simp [fileChunksCore] at hc
    · simp only [fileChunksCore, if_neg hd, List.mem_cons] at hc
      rcases hc with h | h
      · subst h
        constructor
        · rw [List.length_take]; omega
        · simp [List.take_eq_nil_iff, hd]
      · exact ih (data.drop 4096) c h

theorem fileChunks_bounds (data : List Nat) : ∀ c ∈ fileChunks data,
    c.length ≤ 4096 ∧ c ≠ [] :=
  fileChunksCore_bounds _ data


/-! ## Claim C1 -/

theorem freq_dumps_length (s : List Char) :
    (dumpsMessage (.file_request s)).length = 40 + (escapeString s).length := by
  have hlit : (("\x7b\"type\": \"file_request\", \"filename\": ").toList).length = 37 := rfl
  have hrb : (("\x7d").toList).length = 1 := rfl
  simp only [dumpsMessage, jstr, List.length_append, List.length_cons, List.length_nil,
    hlit, hrb]
  omega

/-- A message whose payload exceeds the 1 MiB limit (but still fits the
4-byte length prefix) is framed by _send_message and then rejected by
_receive_message's size check. -/
theorem roundtrip_fails_of_oversize (m : Message)
    (hbig : 1048576 < (utf8Encode (dumpsMessage m)).length)
    (hlt : (utf8Encode (dumpsMessage m)).length < 4294967296) :
    (sendMessage m).bind receiveMessage = none := by
  unfold sendMessage
  rw [if_pos hlt]
  simp only [Option.some_bind]
  unfold receiveMessage
  rw [show (4 : Nat) = (toBytes4BE (utf8Encode (dumpsMessage m)).length).length from rfl]
  rw [receiveExact_append]
  simp only
  rw [fromBytes_toBytes _ hlt]
  rw [if_pos hbig]

/-- Claim C1 (as stated, counterexample): a valid file_request message whose
filename has 1,048,577 characters produces a frame whose declared payload
length exceeds 1 MiB, so _receive_message rejects the frame that
_send_message produced and the round trip fails. -/
theorem C1_counterexample :
    (sendMessage (.file_request (List.replicate 1048577 'a'))).bind receiveMessage =
      none := by
  have hulen : (utf8Encode (dumpsMessage
      (.file_request (List.replicate 1048577 'a')))).length = 1048617 := by
    rw [utf8Encode_length_ascii _ (dumpsMessage_ascii _), freq_dumps_length,
      escapeString_replicate_a, List.length_replicate]
  exact roundtrip_fails_of_oversize _ (by rw [hulen]; norm_num) (by rw [hulen]; norm_num)

/-- Claim C1 (amended): for every valid protocol message whose encoded JSON
payload is at most 1,048,576 bytes, decoding the frame produced by encoding
the message yields the message again: the 4-byte big-endian length prefix is
read back, exactly that many payload bytes are consumed, and parsing the
UTF-8 JSON payload reconstructs the original message. -/
theorem C1_roundtrip (m : Message)
    (h : (utf8Encode (dumpsMessage m)).length ≤ 1048576) :
    (sendMessage m).bind receiveMessage = some (m, []) := by
  unfold sendMessage
  rw [if_pos (by omega)]
  simp only [Option.some_bind]
  have hf := receiveMessage_frame m [] h
  rw [List.append_nil] at hf
  exact hf

theorem C1_witness :
    (utf8Encode (dumpsMessage .ping)).length ≤ 1048576 ∧
      (sendMessage .ping).bind receiveMessage = some (.ping, []) :=
  ⟨by decide, C1_roundtrip .ping (by decide)⟩

/-! ## Claim C2 -/

/-- Claim C2 (as stated, counterexample): when the connection closes after 3
of 10 declared bytes, request_file returns failure but the partially written
destination file remains on disk with those 3 bytes — it is not removed. -/
theorem C2_counterexample :
    request_file [1] (frameOf (.file_response_ok ['f'] 10) ++ [1, 2, 3]) =
      { success := false, destFile := some [1, 2, 3] } := by
  have h := receiveMessage_frame (.file_response_ok ['f'] 10) [1, 2, 3] (by decide)
  simp only [request_file, h]
  rw [request_file_recv_take]
  decide

/-- Claim C2 (amended): if the connection closes after delivering fewer than
size bytes, request_file reports the incomplete transfer (returning failure
with the received byte count short of the declared size), but the partially
written destination file remains on disk containing exactly the bytes that
arrived; no path of request_file removes it. -/
theorem C2_partial_transfer (p : Nat) (ps : List Nat) (f : List Char) (size : Nat)
    (delivered : List Nat)
    (hlen : (utf8Encode (dumpsMessage (.file_response_ok f size))).length ≤ 1048576)
    (hshort : delivered.length < size) :
    request_file (p :: ps) (frameOf (.file_response_ok f size) ++ delivered) =
      { success := false, destFile := some delivered } := by
  have h := receiveMessage_frame (.file_response_ok f size) delivered hlen
  simp only [request_file, h]
  rw [request_file_recv_take, List.take_of_length_le (by omega)]
  have hne : (delivered.length == size) = false := by
    rw [beq_eq_false_iff_ne]
    omega
  rw [hne]

theorem C2_witness :
    (utf8Encode (dumpsMessage (.file_response_ok ['g'] 7))).length ≤ 1048576 ∧
      ([9, 9] : List Nat).length < 7 ∧
      request_file [3] (frameOf (.file_response_ok ['g'] 7) ++ [9, 9]) =
        { success := false, destFile := some [9, 9] } :=
  ⟨by decide, by decide, C2_partial_transfer 3 [] ['g'] 7 [9, 9] (by decide) (by decide)⟩

/-! ## Claim C5 -/

/-- Claim C5: for every shared file, the server answers a resolving
file_request with a success header carrying the current size followed by the
file bytes in chunks of at most 4096 bytes whose concatenation is exactly
the file; the client reads exactly the declared size in chunks of at most
4096 bytes, writes exactly the source byte sequence, and succeeds precisely
when the delivered stream carries at least the declared size. -/
theorem C5_transfer_exact (fs : Fs) (cat : Catalog)
    (f path : List Char) (contents : List Nat) (p : Nat) (ps : List Nat)
    (hf : f ≠ []) (hres : get_file_path cat f = some path)
    (hfile : alookup fs path = some contents)
    (hlen : (utf8Encode (dumpsMessage
      (.file_response_ok f contents.length))).length ≤ 1048576) :
    process_file_request fs cat (some f) =
      (.replyFile (.file_response_ok f contents.length) (fileChunks contents), cat) ∧
    (fileChunks contents).flatten = contents ∧
    (∀ c ∈ fileChunks contents, c.length ≤ 4096) ∧
    request_file (p :: ps) (frameOf (.file_response_ok f contents.length) ++ contents) =
      { success := true, destFile := some contents } ∧
    (∀ delivered : List Nat,
      (request_file (p :: ps)
        (frameOf (.file_response_ok f contents.length) ++ delivered)).success = true ↔
        contents.length ≤ delivered.length) := by
  have hex : pathExists fs path = true := by simp [pathExists, hfile]
  have hco : contentsOf fs path = contents := by simp [contentsOf, hfile]
  refine ⟨?_, fileChunks_flatten contents, fun c hc => (fileChunks_bounds contents c hc).1,
    ?_, ?_⟩
  · simp [process_file_request, hf, hres, hex, hco]
  · have h := receiveMessage_frame (.file_response_ok f contents.length) contents hlen
    simp only [request_file, h]
    rw [request_file_recv_take, List.take_of_length_le (by omega)]
    simp
  · intro delivered
    have h := receiveMessage_frame (.file_response_ok f contents.length) delivered hlen
    simp only [request_file, h]
    rw [request_file_recv_take]
    constructor
    · intro hs
      simp only [beq_iff_eq] at hs
      have := List.length_take contents.length delivered
      omega
    · intro hge
      simp only [beq_iff_eq]
      rw [List.length_take]
      omega

theorem C5_witness :
    (['f'] : List Char) ≠ [] ∧
      get_file_path [(['f'], ⟨['q'], 1, [], 0⟩)] ['f'] = some ['q'] ∧
      alookup [(['q'], [7, 8])] ['q'] = some [7, 8] ∧
      process_file_request [(['q'], [7, 8])] [(['f'], ⟨['q'], 1, [], 0⟩)] (some ['f']) =
        (.replyFile (.file_response_ok ['f'] 2) (fileChunks [7, 8]),
          [(['f'], ⟨['q'], 1, [], 0⟩)]) ∧
      request_file [5] (frameOf (.file_response_ok ['f'] 2) ++ [7, 8]) =
        { success := true, destFile := some [7, 8] } :=
  ⟨by decide, by decide, by decide,
    (C5_transfer_exact [(['q'], [7, 8])] [(['f'], ⟨['q'], 1, [], 0⟩)]
      ['f'] ['q'] [7, 8] 5 [] (by decide) (by decide) (by decide) (by decide)).1,
    (C5_transfer_exact [(['q'], [7, 8])] [(['f'], ⟨['q'], 1, [], 0⟩)]
      ['f'] ['q'] [7, 8] 5 [] (by decide) (by decide) (by decide) (by decide)).2.2.2.1⟩

/-! ## Claim C6 -/

/-- Claim C6 (as stated, counterexample): a frame with declared length 0 is
at most 1 MiB, yet the server does not process it — the empty read is
treated as a closed stream and the connection is torn down, without the
payload ever reaching JSON parsing and dispatch. -/
theorem C6_counterexample : readFrame [0, 0, 0, 0, 42] = (.closedEmpty, [42]) := by
  decide

/-- Claim C6 (amended): a frame whose declared length exceeds 1 MiB makes
the server abort the connection without reading any payload bytes (the
bytes after the 4-byte header are left unread), while a frame with declared
length between 1 and 1 MiB whose payload is fully available is read in full
and handed to JSON parsing and dispatch; a declared length of 0 instead
closes the connection. -/
theorem C6_frame_limit :
    (∀ hdr rest : List Nat, hdr.length = 4 → fromBytesBE hdr > 1048576 →
      readFrame (hdr ++ rest) = (.closedOversize, rest)) ∧
    (∀ hdr payload extra : List Nat, hdr.length = 4 →
      fromBytesBE hdr = payload.length → 1 ≤ payload.length →
      payload.length ≤ 1048576 →
      readFrame (hdr ++ (payload ++ extra)) = (.gotPayload payload, extra)) := by
  constructor
  · intro hdr rest h4 hbig
    unfold readFrame
    rw [← h4, receiveExact_append]
    simp only
    rw [if_pos hbig]
  · intro hdr payload extra h4 hlen h1 hmax
    unfold readFrame
    rw [← h4, receiveExact_append]
    simp only
    rw [if_neg (by omega), hlen, receiveExact_append]
    simp only
    rw [if_neg (by
      intro hc
      rw [hc] at h1
      simp at h1)]

theorem C6_witness :
    readFrame ([255, 255, 255, 255] ++ [7]) = (.closedOversize, [7]) ∧
      readFrame ([0, 0, 0, 2] ++ ([65, 66] ++ [9])) = (.gotPayload [65, 66], [9]) :=
  ⟨C6_frame_limit.1 [255, 255, 255, 255] [7] (by decide) (by decide),
    C6_frame_limit.2 [0, 0, 0, 2] [65, 66] [9] (by decide) (by decide) (by decide)
      (by decide)⟩

/-! ## Claim C7 -/

/-- Claim C7: when the service lookup returns no advertised file-sharing
service, get_peer_files returns the lookup-failure outcome (None) without
opening a data connection, and that outcome is distinguishable from a
successful reply carrying an empty file list (some []). -/
theorem C7_service_absent :
    (∀ stream : List Nat,
      get_peer_files [] stream = { files := none, connected := false }) ∧
    get_peer_files [1] (frameOf (.file_list_response [])) =
      { files := some [], connected := true } ∧
    (some ([] : List FileDescriptor) ≠ none) := by
  refine ⟨fun stream => rfl, ?_, by simp⟩
  have h := receiveMessage_frame (.file_list_response []) [] (by decide)
  rw [List.append_nil] at h
  simp [get_peer_files, h]

/-! ## Claim C4 -/

/-- Claim C4 (code bug): for a nonempty filename that does not resolve in
the catalog, get_file_path returns None, os.path.exists(None) raises
TypeError (genericpath.exists only catches OSError and ValueError), the
exception is caught by _handle_client's generic handler, and the connection
is closed — no FileResponse is sent, contradicting the specified
File-not-found reply. -/
theorem C4_unresolved_name_closes (fs : Fs) (cat : Catalog) (f : List Char)
    (hf : f ≠ []) (hres : get_file_path cat f = none) :
    process_file_request fs cat (some f) = (.raiseClose, cat) ∧
      closesConnection .raiseClose = true := by
  constructor
  · simp [process_file_request, hf, hres]
  · rfl

theorem C4_witness :
    process_file_request [] [] (some ['x']) = (.raiseClose, []) ∧
      closesConnection .raiseClose = true :=
  C4_unresolved_name_closes [] [] ['x'] (by decide) (by decide)

/-! ## Claim C10 -/

/-- Claim C10: a file_request whose filename field is absent or the empty
string is silently dropped: no response of any kind is sent, the connection
stays open (the handler returns normally and the receive loop continues),
and the catalog is left unchanged. -/
theorem C10_falsy_filename_dropped (fs : Fs) (cat : Catalog) :
    process_file_request fs cat none = (.noAction, cat) ∧
      process_file_request fs cat (some []) = (.noAction, cat) ∧
      closesConnection .noAction = false :=
  ⟨rfl, by simp [process_file_request], rfl⟩


/-! ## Claim C3: catalog lemmas -/

theorem alookup_of_mem_nodup {α : Type} : ∀ (l : List (List Char × α)),
    (l.map (fun p => p.1)).Nodup → ∀ p ∈ l, alookup l p.1 = some p.2 := by
  intro l
  induction l with
  | nil => simp
  | cons q t ih =>
    intro hnd p hp
    obtain ⟨k, v⟩ := q
    simp only [List.map_cons, List.nodup_cons] at hnd
    rcases List.mem_cons.mp hp with h | h
    · subst h
      simp [alookup]
    · have hne : p.1 ≠ k := by
        intro he
        exact hnd.1 (he ▸ List.mem_map_of_mem (fun p => p.1) h)
      simp only [alookup, if_neg hne]
      exact ih hnd.2 p h

theorem filterMap_resolve (hashFn : List Nat → List Char) (fs : Fs) (big : Catalog) :
    ∀ l : Catalog, (∀ p ∈ l, alookup big p.1 = some p.2) →
    (∀ p ∈ l, pathExists fs p.2.path = true) →
    (l.map (fun e => e.1)).filterMap (fun n =>
      match get_file_path big n with
      | some p =>
        if pathExists fs p then
          some (⟨n, (contentsOf fs p).length, hashFn (contentsOf fs p)⟩ : FileDescriptor)
        else none
      | none => none) =
    l.map (fun e =>
      (⟨e.1, (contentsOf fs e.2.path).length, hashFn (contentsOf fs e.2.path)⟩ :
        FileDescriptor)) := by
  intro l
  induction l with
  | nil => simp
  | cons p t ih =>
    intro h1 h2
    have hp1 : alookup big p.1 = some p.2 := h1 p (by simp)
    have hp2 : pathExists fs p.2.path = true := h2 p (by simp)
    have hres : get_file_path big p.1 = some p.2.path := by
      simp [get_file_path, hp1]
    simp only [List.map_cons, List.filterMap_cons, hres, hp2, if_true]
    rw [ih (fun q hq => h1 q (by simp [hq])) (fun q hq => h2 q (by simp [hq]))]

/-- Claim C3 (amended): serving a FileListRequest enumerates the catalog's
current names and omits entries whose path no longer resolves, answering
with each surviving entry's name, current size and content hash — but it
does not leave the catalog unchanged: get_shared_files deletes every entry
whose path is gone from the stored name-to-path mapping (and persists the
change), so after the call the catalog equals the filter of the old one. -/
theorem C3_list_request_mutates (hashFn : List Nat → List Char) (fs : Fs)
    (cat : Catalog) (hnodup : (cat.map (fun p => p.1)).Nodup) :
    handle_file_list_request hashFn fs cat =
      (.file_list_response ((cat.filter (fun e => pathExists fs e.2.path)).map
        (fun e => ⟨e.1, (contentsOf fs e.2.path).length,
                  hashFn (contentsOf fs e.2.path)⟩)),
       cat.filter (fun e => pathExists fs e.2.path)) := by
  have hsub : ((cat.filter (fun e => pathExists fs e.2.path)).map (fun p => p.1)).Nodup :=
    ((List.filter_sublist cat).map (fun p => p.1)).nodup hnodup
  have h1 := alookup_of_mem_nodup _ hsub
  have h2 : ∀ p ∈ cat.filter (fun e => pathExists fs e.2.path),
      pathExists fs p.2.path = true := by
    intro p hp
    exact (List.mem_filter.mp hp).2
  unfold handle_file_list_request get_shared_files
  simp only
  rw [filterMap_resolve hashFn fs _ _ h1 h2]

/-- Claim C3 (as stated, counterexample): with one shared entry whose path
does not exist on disk, serving the file-list request deletes that entry
from the catalog's stored mapping instead of merely skipping it. -/
theorem C3_counterexample :
    (handle_file_list_request (fun _ => []) []
        [(['a'], ⟨['p'], 1, [], 0⟩)]).2 ≠ [(['a'], (⟨['p'], 1, [], 0⟩ : CatEntry))] := by
  decide

theorem C3_witness :
    handle_file_list_request (fun _ => []) [(['p'], [5])]
        [(['a'], ⟨['p'], 1, [], 0⟩), (['b'], ⟨['q'], 2, [], 0⟩)] =
      (.file_list_response [⟨['a'], 1, []⟩], [(['a'], ⟨['p'], 1, [], 0⟩)]) :=
  (C3_list_request_mutates (fun _ => []) [(['p'], [5])]
    [(['a'], ⟨['p'], 1, [], 0⟩), (['b'], ⟨['q'], 2, [], 0⟩)] (by decide)).trans (by decide)


/-! ## Registry lemmas -/

theorem alookup_dictSet_self {α : Type} : ∀ (l : List (List Char × α)) (k : List Char) (v : α),
    alookup (dictSet l k v) k = some v := by
  intro l k v
  induction l with
  | nil => simp [dictSet, alookup]
  | cons q t ih =>
    obtain ⟨a, b⟩ := q
    by_cases hk : k = a
    · simp [dictSet, hk, alookup]
    · simp [dictSet, hk, alookup, ih]

theorem alookup_dictSet_ne {α : Type} : ∀ (l : List (List Char × α)) (k k' : List Char) (v : α),
    k' ≠ k → alookup (dictSet l k v) k' = alookup l k' := by
  intro l k k' v h
  induction l with
  | nil => simp [dictSet, alookup, h]
  | cons q t ih =>
    obtain ⟨a, b⟩ := q
    by_cases hk : k = a
    · subst hk
      simp [dictSet, alookup, h]
    · simp only [dictSet, if_neg hk]
      by_cases hk' : k' = a
      · simp [alookup, hk']
      · simp [alookup, hk', ih]

theorem mem_dictSet {α : Type} : ∀ (l : List (List Char × α)) (k : List Char) (v : α)
    (p : List Char × α), p ∈ dictSet l k v → p = (k, v) ∨ p ∈ l := by
  intro l k v
  induction l with
  | nil => simp [dictSet]
  | cons q t ih =>
    obtain ⟨a, b⟩ := q
    intro p hp
    by_cases hk : k = a
    · simp only [dictSet, if_pos hk, List.mem_cons] at hp
      rcases hp with h | h
      · exact Or.inl h
      · exact Or.inr (List.mem_cons_of_mem _ h)
    · simp only [dictSet, if_neg hk, List.mem_cons] at hp
      rcases hp with h | h
      · exact Or.inr (by simp [h])
      · rcases ih p h with h' | h'
        · exact Or.inl h'
        · exact Or.inr (List.mem_cons_of_mem _ h')

theorem dictSet_keys {α : Type} : ∀ (l : List (List Char × α)) (k : List Char) (v : α),
    (dictSet l k v).map (fun p => p.1) = l.map (fun p => p.1) ∨
    ((dictSet l k v).map (fun p => p.1) = l.map (fun p => p.1) ++ [k] ∧
      k ∉ l.map (fun p => p.1)) := by
  intro l k v
  induction l with
  | nil => right; simp [dictSet]
  | cons q t ih =>
    obtain ⟨a, b⟩ := q
    by_cases hk : k = a
    · left; simp [dictSet, hk]
    · rcases ih with h | ⟨h, hmem⟩
      · left; simp [dictSet, hk, h]
      · right
        constructor
        · simp [dictSet, hk, h]
        · simp only [List.map_cons, List.mem_cons]
          rintro (h' | h')
          · exact hk h'
          · exact hmem h'

theorem dictSet_nodup {α : Type} (l : List (List Char × α)) (k : List Char) (v : α)
    (h : (l.map (fun p => p.1)).Nodup) : ((dictSet l k v).map (fun p => p.1)).Nodup := by
  rcases dictSet_keys l k v with he | ⟨he, hmem⟩
  · rw [he]; exact h
  · rw [he]
    simp [List.nodup_append, h, hmem]

theorem alookup_eq_none {α : Type} : ∀ (l : List (List Char × α)) (k : List Char),
    k ∉ l.map (fun p => p.1) → alookup l k = none := by
  intro l k
  induction l with
  | nil => intro _; rfl
  | cons q t ih =>
    obtain ⟨a, b⟩ := q
    intro h
    simp only [List.map_cons, List.mem_cons] at h
    push_neg at h
    simp [alookup, h.1, ih h.2]

theorem alookup_mem {α : Type} : ∀ (l : List (List Char × α)) (k : List Char) (v : α),
    alookup l k = some v → (k, v) ∈ l := by
  intro l k v
  induction l with
  | nil => simp [alookup]
  | cons q t ih =>
    obtain ⟨a, b⟩ := q
    intro h
    by_cases hk : k = a
    · subst hk
      simp only [alookup, if_true, eq_self_iff_true, Option.some.injEq] at h
      subst h
      simp
    · simp only [alookup, if_neg hk] at h
      exact List.mem_cons_of_mem _ (ih h)

theorem alookup_eraseKey_ne {α : Type} : ∀ (l : List (List Char × α)) (k k' : List Char),
    k' ≠ k → alookup (eraseKey l k) k' = alookup l k' := by
  intro l k k' h
  induction l with
  | nil => rfl
  | cons q t ih =>
    obtain ⟨a, b⟩ := q
    by_cases hk : k = a
    · subst hk
      simp [eraseKey, alookup, h]
    · by_cases hk' : k' = a
      · simp [eraseKey, hk, alookup, hk']
      · simp [eraseKey, hk, alookup, hk', ih]

theorem eraseKey_keys_sublist {α : Type} : ∀ (l : List (List Char × α)) (k : List Char),
    ((eraseKey l k).map (fun p => p.1)).Sublist (l.map (fun p => p.1)) := by
  intro l k
  induction l with
  | nil => simp [eraseKey]
  | cons q t ih =>
    obtain ⟨a, b⟩ := q
    by_cases hk : k = a
    · simp only [eraseKey, if_pos hk, List.map_cons]
      exact (List.sublist_cons_self _ _)
    · simp only [eraseKey, if_neg hk, List.map_cons]
      exact ih.cons₂ a

theorem alookup_eraseKey_self {α : Type} : ∀ (l : List (List Char × α)) (k : List Char),
    (l.map (fun p => p.1)).Nodup → alookup (eraseKey l k) k = none := by
  intro l k
  induction l with
  | nil => intro _; rfl
  | cons q t ih =>
    obtain ⟨a, b⟩ := q
    intro hnd
    simp only [List.map_cons, List.nodup_cons] at hnd
    by_cases hk : k = a
    · subst hk
      simp only [eraseKey, if_pos rfl]
      exact alookup_eq_none t k hnd.1
    · simp [eraseKey, hk, alookup, ih hnd.2]

theorem mem_eraseKey {α : Type} : ∀ (l : List (List Char × α)) (k : List Char)
    (p : List Char × α), p ∈ eraseKey l k → p ∈ l := by
  intro l k
  induction l with
  | nil => simp [eraseKey]
  | cons q t ih =>
    obtain ⟨a, b⟩ := q
    intro p hp
    by_cases hk : k = a
    · simp only [eraseKey, if_pos hk] at hp
      exact List.mem_cons_of_mem _ hp
    · simp only [eraseKey, if_neg hk, List.mem_cons] at hp
      rcases hp with h | h
      · simp [h]
      · exact List.mem_cons_of_mem _ (ih p h)

theorem removeAddr_wf (r : Registry) (a : List Char) (h : addrConsistent r) :
    addrConsistent (removeAddr r a).1 := by
  unfold removeAddr
  cases halo : alookup r.peers a with
  | none => exact h
  | some info =>
    intro p hp
    exact h p (mem_eraseKey _ _ _ hp)

theorem removeAddr_nodup (r : Registry) (a : List Char) (h : keysNodup r) :
    keysNodup (removeAddr r a).1 := by
  unfold removeAddr
  cases halo : alookup r.peers a with
  | none => exact h
  | some info =>
    exact ⟨(eraseKey_keys_sublist _ _).nodup h.1, (eraseKey_keys_sublist _ _).nodup h.2⟩

theorem removeAddr_lookup_ne (r : Registry) (a b : List Char) (h : b ≠ a) :
    alookup (removeAddr r a).1.peers b = alookup r.peers b := by
  unfold removeAddr
  cases halo : alookup r.peers a with
  | none => rfl
  | some info => exact alookup_eraseKey_ne _ _ _ h

theorem removeAddr_event_addr (r : Registry) (a : List Char) (e : PeerInfo)
    (hwf : addrConsistent r) (he : (removeAddr r a).2 = some e) : e.address = a := by
  unfold removeAddr at he
  cases halo : alookup r.peers a with
  | none => rw [halo] at he; simp at he
  | some info =>
    rw [halo] at he
    simp only [Option.some.injEq] at he
    rw [← he]
    exact hwf (a, info) (alookup_mem _ _ _ halo)

theorem cleanupFold_skip : ∀ (addrs : List (List Char)) (r0 : Registry)
    (evs0 : List PeerInfo) (a : List Char),
    addrConsistent r0 → a ∉ addrs →
    alookup (addrs.foldl cleanupStep (r0, evs0)).1.peers a = alookup r0.peers a ∧
    ∃ new, (addrs.foldl cleanupStep (r0, evs0)).2 = evs0 ++ new ∧
      ∀ e ∈ new, e.address ≠ a := by
  intro addrs
  induction addrs with
  | nil =>
    intro r0 evs0 a _ _
    exact ⟨rfl, [], by simp, by simp⟩
  | cons x xs ih =>
    intro r0 evs0 a hwf ha
    have hax : a ≠ x := fun he => ha (he ▸ List.mem_cons_self x xs)
    have haxs : a ∉ xs := fun hm => ha (List.mem_cons_of_mem _ hm)
    rw [List.foldl_cons,
      show cleanupStep (r0, evs0) x =
        ((removeAddr r0 x).1, evs0 ++ (removeAddr r0 x).2.toList) from rfl]
    obtain ⟨hl, new, hnew, hne⟩ :=
      ih (removeAddr r0 x).1 (evs0 ++ (removeAddr r0 x).2.toList) a
        (removeAddr_wf r0 x hwf) haxs
    refine ⟨?_, (removeAddr r0 x).2.toList ++ new, ?_, ?_⟩
    · rw [hl, removeAddr_lookup_ne r0 x a hax]
    · rw [hnew, List.append_assoc]
    · intro e he
      rcases List.mem_append.mp he with h | h
      · have hsome : (removeAddr r0 x).2 = some e := by
          cases ho : (removeAddr r0 x).2 with
          | none => rw [ho] at h; simp at h
          | some e' =>
            rw [ho] at h
            simp only [Option.toList_some, List.mem_singleton] at h
            rw [h]
        rw [removeAddr_event_addr r0 x e hwf hsome]
        exact fun he' => hax he'.symm
      · exact hne e h

theorem cleanupFold_hit : ∀ (addrs : List (List Char)) (r0 : Registry)
    (evs0 : List PeerInfo) (a : List Char) (info : PeerInfo),
    addrConsistent r0 → keysNodup r0 → addrs.Nodup → a ∈ addrs →
    alookup r0.peers a = some info →
    alookup (addrs.foldl cleanupStep (r0, evs0)).1.peers a = none ∧
    ∃ new, (addrs.foldl cleanupStep (r0, evs0)).2 = evs0 ++ new ∧
      new.count info = 1 := by
  intro addrs
  induction addrs with
  | nil =>
    intro r0 evs0 a info _ _ _ ha _
    simp at ha
  | cons x xs ih =>
    intro r0 evs0 a info hwf hnd hnodup hmem hlook
    have haddr : info.address = a := hwf (a, info) (alookup_mem _ _ _ hlook)
    rw [List.foldl_cons,
      show cleanupStep (r0, evs0) x =
        ((removeAddr r0 x).1, evs0 ++ (removeAddr r0 x).2.toList) from rfl]
    by_cases hxa : x = a
    · subst hxa
      have hrm1 : (removeAddr r0 x).1 =
          { peers := eraseKey r0.peers x, last_seen := eraseKey r0.last_seen x } := by
        simp [removeAddr, hlook]
      have hrm2 : (removeAddr r0 x).2 = some info := by
        simp [removeAddr, hlook]
      have hxxs : x ∉ xs := (List.nodup_cons.mp hnodup).1
      obtain ⟨hl, new, hnew, hne⟩ :=
        cleanupFold_skip xs (removeAddr r0 x).1 (evs0 ++ (removeAddr r0 x).2.toList) x
          (removeAddr_wf r0 x hwf) hxxs
    -- after the fold over xs the record stays deleted
      refine ⟨?_, info :: new, ?_, ?_⟩
      · rw [hl, hrm1]
        exact alookup_eraseKey_self _ _ hnd.1
      · rw [hnew, hrm2]
        simp
      · have hnotin : info ∉ new := by
          intro hmem'
          exact hne info hmem' haddr
        rw [List.count_cons_self, List.count_eq_zero.mpr hnotin]
    · have hwf' := removeAddr_wf r0 x hwf
      have hnd' := removeAddr_nodup r0 x hnd
      have hl' : alookup (removeAddr r0 x).1.peers a = some info := by
        rw [removeAddr_lookup_ne r0 x a (fun he => hxa he.symm)]
        exact hlook
      have hmem' : a ∈ xs := by
        rcases List.mem_cons.mp hmem with h | h
        · exact absurd h.symm hxa
        · exact h
      obtain ⟨hl, new, hnew, hcount⟩ :=
        ih (removeAddr r0 x).1 (evs0 ++ (removeAddr r0 x).2.toList) a info hwf' hnd'
          (List.nodup_cons.mp hnodup).2 hmem' hl'
      refine ⟨hl, (removeAddr r0 x).2.toList ++ new, by rw [hnew, List.append_assoc], ?_⟩
      rw [List.count_append, hcount]
      have hdelta : (removeAddr r0 x).2.toList.count info = 0 := by
        rw [List.count_eq_zero]
        intro hmem2
        have hsome : (removeAddr r0 x).2 = some info := by
          cases ho : (removeAddr r0 x).2 with
          | none => rw [ho] at hmem2; simp at hmem2
          | some e' =>
            rw [ho] at hmem2
            simp only [Option.toList_some, List.mem_singleton] at hmem2
            rw [hmem2]
        have := removeAddr_event_addr r0 x info hwf hsome
        exact hxa (by rw [← this, haddr])
      rw [hdelta]


theorem add_peer_peers (r : Registry) (a name : List Char) (port : Option Nat)
    (sname : Option (List Char)) (now : Int) :
    (add_peer r a name port sname now).1.peers =
      dictSet r.peers a
        { address := a
          name := if name = [] then deviceName a else name
          port := port
          service_name := sname
          first_seen :=
            match alookup r.peers a with
            | some old => old.first_seen
            | none => now
          last_seen := now } := rfl

/-- C9: `_add_peer` stores, for the upserted address, a record whose
first_seen is taken from the existing record when one is present (the upsert
time on first sighting) and whose last_seen is the upsert time; and along
any sequence of upserts with monotone clock, starting from a registry where
every record satisfies first_seen ≤ last_seen ≤ B with every operation time
at least B, every record of the final registry satisfies
first_seen ≤ last_seen. -/
theorem C9_timestamps :
    (∀ (r : Registry) (a name : List Char) (port : Option Nat)
        (sname : Option (List Char)) (now : Int),
      alookup (add_peer r a name port sname now).1.peers a =
        some { address := a
               name := if name = [] then deviceName a else name
               port := port
               service_name := sname
               first_seen :=
                 match alookup r.peers a with
                 | some old => old.first_seen
                 | none => now
               last_seen := now }) ∧
    (∀ (r : Registry) (B : Int) (ops : List UpsertOp),
      (∀ p ∈ r.peers, p.2.first_seen ≤ p.2.last_seen ∧ p.2.last_seen ≤ B) →
      (∀ op ∈ ops, B ≤ op.time) →
      List.Sorted (fun x y => x ≤ y) (ops.map (fun op => op.time)) →
      ∀ p ∈ (runUpserts r ops).peers, p.2.first_seen ≤ p.2.last_seen) := by
  constructor
  · intro r a name port sname now
    rw [add_peer_peers]
    exact alookup_dictSet_self _ _ _
  · intro r B ops
    induction ops generalizing r B with
    | nil =>
      intro h1 _ _ p hp
      exact (h1 p hp).1
    | cons op ops ih =>
      intro h1 h2 hs
      have hB : B ≤ op.time := h2 op (List.mem_cons_self _ _)
      rw [List.map_cons, List.sorted_cons] at hs
      show ∀ p ∈ (runUpserts (add_peer r op.address op.name op.port op.sname op.time).1
        ops).peers, p.2.first_seen ≤ p.2.last_seen
      refine ih _ op.time ?_ ?_ hs.2
      · intro q hq
        rw [add_peer_peers] at hq
        rcases mem_dictSet _ _ _ q hq with h | h
        · rw [h]
          refine ⟨?_, le_refl _⟩
          show (match alookup r.peers op.address with
            | some old => old.first_seen
            | none => op.time) ≤ op.time
          cases halo : alookup r.peers op.address with
          | none => exact le_refl _
          | some old =>
            have hm := h1 (op.address, old) (alookup_mem _ _ _ halo)
            calc old.first_seen ≤ old.last_seen := hm.1
              _ ≤ B := hm.2
              _ ≤ op.time := hB
        · have hm := h1 q h
          exact ⟨hm.1, le_trans hm.2 hB⟩
      · intro op' hop'
        exact hs.1 _ (List.mem_map_of_mem _ hop')

/-- Witness for C9: a fresh upsert at time 5 stores first_seen = last_seen = 5,
and after the sequence of upserts at times 5 then 9 on the same address every
record satisfies first_seen ≤ last_seen. -/
theorem C9_witness :
    alookup (add_peer ⟨[], []⟩ (['a']) (['n']) none none 5).1.peers (['a']) =
      some ⟨['a'], ['n'], none, none, 5, 5⟩ ∧
    ∀ p ∈ (runUpserts ⟨[], []⟩
        [⟨['a'], ['n'], none, none, 5⟩, ⟨['a'], ['m'], none, none, 9⟩]).peers,
      p.2.first_seen ≤ p.2.last_seen := by
  constructor
  · exact (C9_timestamps.1 ⟨[], []⟩ ['a'] ['n'] none none 5).trans (by decide)
  · exact C9_timestamps.2 ⟨[], []⟩ 0
      [⟨['a'], ['n'], none, none, 5⟩, ⟨['a'], ['m'], none, none, 9⟩]
      (by intro p hp; simp at hp) (by decide) (by decide)

/-- C8: after an upsert at time T stored the record `info` for address `a`,
a get_peers query at time `now` returns it exactly when now - T < 120 (and
excludes it once now - T ≥ 120, the record still being present); and one
cleanup pass at time `now` deletes the record, firing exactly one peer-lost
event for it, when now - T > 180, while for now - T ≤ 180 it keeps the
record and fires no event for it. -/
theorem C8_registry_ttl (r r' : Registry) (isNew : Bool) (a name : List Char)
    (port : Option Nat) (sname : Option (List Char)) (T now : Int) (info : PeerInfo)
    (hwf : addrConsistent r) (hnd : keysNodup r)
    (hstep : add_peer r a name port sname T = (r', isNew))
    (hinfo : alookup r'.peers a = some info) :
    (info ∈ get_peers r' now ↔ now - T < 120) ∧
    (now - T > 180 →
      alookup (cleanup_once r' now).1.peers a = none ∧
      (cleanup_once r' now).2.count info = 1) ∧
    (now - T ≤ 180 →
      alookup (cleanup_once r' now).1.peers a = some info ∧
      info ∉ (cleanup_once r' now).2) := by
  have hr' : (add_peer r a name port sname T).1 = r' := congrArg Prod.fst hstep
  have hpeers : r'.peers =
      dictSet r.peers a
        { address := a
          name := if name = [] then deviceName a else name
          port := port
          service_name := sname
          first_seen :=
            match alookup r.peers a with
            | some old => old.first_seen
            | none => T
          last_seen := T } := by
    rw [← hr', add_peer_peers]
  have hlast : r'.last_seen = dictSet r.last_seen a T := by
    rw [← hr']
    rfl
  have hself : alookup r'.peers a = some
      { address := a
        name := if name = [] then deviceName a else name
        port := port
        service_name := sname
        first_seen :=
          match alookup r.peers a with
          | some old => old.first_seen
          | none => T
        last_seen := T } := by
    rw [hpeers]
    exact alookup_dictSet_self _ _ _
  have hinfoeq := Option.some.inj (hself.symm.trans hinfo)
  have haddr : info.address = a := by rw [← hinfoeq]
  have hlastinfo : info.last_seen = T := by rw [← hinfoeq]
  have hwf' : addrConsistent r' := by
    intro p hp
    rw [hpeers] at hp
    rcases mem_dictSet _ _ _ p hp with h | h
    · rw [h]
    · exact hwf p h
  have hnd' : keysNodup r' := by
    constructor
    · rw [hpeers]; exact dictSet_nodup _ _ _ hnd.1
    · rw [hlast]; exact dictSet_nodup _ _ _ hnd.2
  have hlsa : lastSeenOf r' a = T := by
    unfold lastSeenOf
    rw [hlast, alookup_dictSet_self]
    rfl
  have hcu : cleanup_once r' now =
      ((r'.last_seen.filter (fun e => now - e.2 > 180)).map (fun e => e.1)).foldl
        cleanupStep (r', []) := rfl
  have htrnd : ((r'.last_seen.filter (fun e => now - e.2 > 180)).map
      (fun e => e.1)).Nodup :=
    ((List.filter_sublist r'.last_seen).map (fun e => e.1)).nodup hnd'.2
  have hmem_iff : a ∈ (r'.last_seen.filter (fun e => now - e.2 > 180)).map
      (fun e => e.1) ↔ now - T > 180 := by
    constructor
    · intro h
      obtain ⟨e, he, he1⟩ := List.mem_map.mp h
      obtain ⟨hemem, hecond⟩ := List.mem_filter.mp he
      have halo : alookup r'.last_seen e.1 = some e.2 :=
        alookup_of_mem_nodup _ hnd'.2 e hemem
      rw [he1, hlast, alookup_dictSet_self] at halo
      have he2 : e.2 = T := (Option.some.inj halo).symm
      have hgt : now - e.2 > 180 := by simpa using hecond
      rw [he2] at hgt
      exact hgt
    · intro h
      apply List.mem_map.mpr
      refine ⟨(a, T), ?_, rfl⟩
      apply List.mem_filter.mpr
      refine ⟨?_, by simpa using h⟩
      apply alookup_mem
      rw [hlast]
      exact alookup_dictSet_self _ _ _
  refine ⟨?_, ?_, ?_⟩
  · constructor
    · intro hmem
      simp only [get_peers, List.mem_filterMap] at hmem
      obtain ⟨e, he, hcond⟩ := hmem
      by_cases hc : now - lastSeenOf r' e.1 < 120
      · rw [if_pos hc] at hcond
        have he2 : e.2 = info := Option.some.inj hcond
        have he1 : e.1 = a := by rw [← hwf' e he, he2, haddr]
        rw [he1, hlsa] at hc
        exact hc
      · rw [if_neg hc] at hcond
        cases hcond
    · intro h
      simp only [get_peers, List.mem_filterMap]
      refine ⟨(a, info), alookup_mem _ _ _ hinfo, ?_⟩
      show (if now - lastSeenOf r' a < 120 then some info else none) = some info
      rw [hlsa, if_pos h]
  · intro h
    obtain ⟨hl, new, hnew, hcount⟩ :=
      cleanupFold_hit ((r'.last_seen.filter (fun e => now - e.2 > 180)).map
        (fun e => e.1)) r' [] a info hwf' hnd' htrnd (hmem_iff.mpr h) hinfo
    rw [hcu]
    refine ⟨hl, ?_⟩
    rw [hnew]
    simpa using hcount
  · intro h
    have hnotmem : a ∉ (r'.last_seen.filter (fun e => now - e.2 > 180)).map
        (fun e => e.1) := fun hm => absurd (hmem_iff.mp hm) (by omega)
    obtain ⟨hl, new, hnew, hne⟩ :=
      cleanupFold_skip ((r'.last_seen.filter (fun e => now - e.2 > 180)).map
        (fun e => e.1)) r' [] a hwf' hnotmem
    rw [hcu]
    refine ⟨hl.trans hinfo, ?_⟩
    rw [hnew]
    simp only [List.nil_append]
    intro hc
    exact hne info hc haddr

/-- Witness for C8: one upsert at time 100 into the empty registry, queried
and cleaned at time 300 (so now - T = 200: excluded from get_peers, evicted
with exactly one peer-lost event). -/
theorem C8_witness :
    ((⟨['a'], ['n'], none, none, 100, 100⟩ : PeerInfo) ∈
        get_peers ⟨[(['a'], ⟨['a'], ['n'], none, none, 100, 100⟩)], [(['a'], 100)]⟩ 300 ↔
      (300 : Int) - 100 < 120) ∧
    ((300 : Int) - 100 > 180 →
      alookup (cleanup_once
          ⟨[(['a'], ⟨['a'], ['n'], none, none, 100, 100⟩)], [(['a'], 100)]⟩ 300).1.peers
        ['a'] = none ∧
      (cleanup_once
          ⟨[(['a'], ⟨['a'], ['n'], none, none, 100, 100⟩)], [(['a'], 100)]⟩ 300).2.count
        ⟨['a'], ['n'], none, none, 100, 100⟩ = 1) ∧
    ((300 : Int) - 100 ≤ 180 →
      alookup (cleanup_once
          ⟨[(['a'], ⟨['a'], ['n'], none, none, 100, 100⟩)], [(['a'], 100)]⟩ 300).1.peers
        ['a'] = some ⟨['a'], ['n'], none, none, 100, 100⟩ ∧
      (⟨['a'], ['n'], none, none, 100, 100⟩ : PeerInfo) ∉
        (cleanup_once
          ⟨[(['a'], ⟨['a'], ['n'], none, none, 100, 100⟩)], [(['a'], 100)]⟩ 300).2) :=
  C8_registry_ttl ⟨[], []⟩
    ⟨[(['a'], ⟨['a'], ['n'], none, none, 100, 100⟩)], [(['a'], 100)]⟩ true
    ['a'] ['n'] none none 100 300 ⟨['a'], ['n'], none, none, 100, 100⟩
    (fun p hp => absurd hp (List.not_mem_nil p))
    ⟨List.nodup_nil, List.nodup_nil⟩
    (by decide)
    (by decide)

end P2Share
